import Mathlib

/-!
Verification development for the `subpub` crate-publishing tool.

The Lean definitions below are shallow embeddings of the Rust sources:

* `src/version.rs`            — semver values and the breaking-change bump policy;
* `src/crate_details.rs`      — the `should_be_published` derivation and `adjust_version`;
* `src/external/crates_io.rs` — the crates.io index path scheme;
* `src/dependencies.rs`       — the format-preserving dependency-field editor;
* `src/publish.rs`            — the publish-order solver and the orchestrator.

Machine integers (`u64`, `usize`) are modelled as `Nat`.  The Rust code uses
`checked_add(..).unwrap()` for rank sums, which aborts instead of wrapping, so
no silent overflow can occur and the `Nat` model agrees with every run that
returns.  Build metadata of semver versions is not modelled: none of the code
under consideration constructs or branches on it, it only flows through
`semver::Version`'s order as a final tiebreak after the fields modelled here.
-/

namespace Subpub

/-! ## Definitions -/

/-- A semver pre-release identifier: numeric identifiers compare numerically
and are smaller than alphanumeric ones, which compare lexically (identifiers
are ASCII, so character order is byte order).  This mirrors
`semver::Prerelease`'s ordering.  Alphanumeric identifiers are carried as
`List Char` rather than `String` only so that comparisons reduce in the
kernel. -/
inductive PreId where
  | num (n : Nat)
  | alphanum (s : List Char)
deriving DecidableEq

/-- Encode a pre-release identifier into a lexicographic sum so that the
semver order (numeric < alphanumeric) is inherited from Mathlib. -/
def PreId.encode : PreId → Nat ⊕ₗ List Char
  | .num n => toLex (Sum.inl n)
  | .alphanum s => toLex (Sum.inr s)

instance : LinearOrder PreId :=
  LinearOrder.lift' PreId.encode (by
    intro a b h
    cases a <;> cases b <;> simp [PreId.encode] at h <;> simp [h])

/-- A semver version as far as `subpub` observes it: `major.minor.patch`
with an optional pre-release tag (empty list = no tag). -/
structure Version where
  major : Nat
  minor : Nat
  patch : Nat
  pre : List PreId := []
deriving DecidableEq

/-- Encode a version into nested lexicographic products.  A non-empty
pre-release list is *smaller* than the empty one (semver: `1.0.0-alpha <
1.0.0`), hence the boolean flag `pre = []` ordered before the identifier
list. -/
def Version.encode (v : Version) : Nat ×ₗ (Nat ×ₗ (Nat ×ₗ (Bool ×ₗ List PreId))) :=
  toLex (v.major, toLex (v.minor, toLex (v.patch, toLex (v.pre = [], v.pre))))

instance : LinearOrder Version :=
  LinearOrder.lift' Version.encode (by
    intro a b h
    cases a; cases b
    simp only [Version.encode, toLex_inj, Prod.mk.injEq] at h
    simp [h.1, h.2.1, h.2.2.1, h.2.2.2.2])

/-- The version with its pre-release tag cleared. -/
def Version.clearPre (v : Version) : Version := { v with pre := [] }

/-- Embedding of `bump_for_breaking_change` (src/version.rs, lines 22–34):
if the version has a pre-release tag, only clear it; otherwise increment the
minor component (zeroing patch) when `major == 0`, else increment the major
component (zeroing minor and patch). -/
def bump_for_breaking_change (version : Version) : Version :=
  if version.pre ≠ [] then
    { version with pre := [] }
  else if version.major = 0 then
    { version with minor := version.minor + 1, patch := 0 }
  else
    { version with major := version.major + 1, minor := 0, patch := 0 }

/-- Embedding of `Vec::into_iter().max()` over versions.  Rust's `max`
returns the last of several equal maxima; under this order equal versions
are identical values, so a left fold preferring the later element is
faithful. -/
def iterMax (l : List Version) : Option Version :=
  match l with
  | [] => none
  | v :: rest => some (rest.foldl (fun acc x => if acc ≤ x then x else acc) v)

/-- Embedding of `maybe_bump_for_breaking_change` (src/version.rs, lines
72–94).  `Ordering::Greater` on `current.cmp(&latest)` corresponds to
`latest < current`. -/
def maybe_bump_for_breaking_change (prev_versions : List Version)
    (current_version : Version) : Option Version :=
  match iterMax prev_versions with
  | some latest_version =>
      let max_version :=
        if latest_version < current_version then current_version else latest_version
      some (bump_for_breaking_change max_version)
  | none =>
      if current_version.pre = [] then none
      else some { current_version with pre := [] }

/-- The breaking bump exactly as claim C2 words it: clear the pre-release tag
of `M` and then *always* increment — minor when `M.major == 0`, otherwise
major. -/
def claimBreakingBump (m : Version) : Version :=
  let c := m.clearPre
  if c.major = 0 then { c with minor := c.minor + 1, patch := 0 }
  else { c with major := c.major + 1, minor := 0, patch := 0 }

/-- The value claim C2 asserts `maybe_bump_for_breaking_change` returns:
`Some (claimBreakingBump (max C L))` with `L` the maximum previous version. -/
def C2claimedResult (P : List Version) (C : Version) : Option Version :=
  (iterMax P).map (fun L => claimBreakingBump (max C L))

/-- Embedding of the `should_be_published` derivation in `CrateDetails::load`
(src/crate_details.rs, lines 100–103).  `cargo_metadata` surfaces a manifest
without a `publish` field as `None` and a registry-list field (including the
`publish = false` shorthand, which becomes the empty list) as
`Some registries`. -/
def should_be_published (publish : Option (List String)) : Bool :=
  match publish with
  | some registries => !registries.isEmpty
  | none => true

/-- ASCII lowercasing of a single byte, as `u8::to_ascii_lowercase`. -/
def asciiLowerByte (b : Nat) : Nat := if 65 ≤ b ∧ b ≤ 90 then b + 32 else b

/-- Embedding of `cratesio_index_crate_path` (src/external/crates_io.rs,
lines 168–200).  Crate names are byte strings; only the prefix bytes pushed
into the buffer go through `to_ascii_lowercase`.  Byte 47 is `/`, bytes
49–51 are the digits `1`–`3`. -/
def cratesio_index_crate_path (krate : List Nat) : List Nat :=
  match krate.length with
  | 0 => []
  | 1 => [49]
  | 2 => [50]
  | 3 => [51, 47] ++ (krate.take 1).map asciiLowerByte
  | _ + 4 =>
    (krate.take 2).map asciiLowerByte ++ [47] ++ ((krate.drop 2).take 2).map asciiLowerByte

/-- The crate-specific part of `get_cratesio_index_metadata_url`
(src/external/crates_io.rs, lines 258–261): the URL is
`{index_url}/{head_sha}/{crate_path}/{krate}`, so the metadata path for the
crate is `crate_path ++ "/" ++ krate`. -/
def indexMetadataPath (krate : List Nat) : List Nat :=
  cratesio_index_crate_path krate ++ [47] ++ krate

/-- The path exactly as claim C9 words it: the prefix scheme with *all*
characters of the path lowercased, including the final crate-name
component. -/
def C9claimedPath (n : List Nat) : List Nat :=
  (match n.length with
   | 0 => []
   | 1 => [49, 47] ++ n
   | 2 => [50, 47] ++ n
   | 3 => [51, 47] ++ n.take 1 ++ [47] ++ n
   | _ + 4 => n.take 2 ++ [47] ++ (n.drop 2).take 2 ++ [47] ++ n).map asciiLowerByte

/-- A TOML value as far as the dependency editor inspects one: a string, or
an opaque non-string value (one on which `as_str` fails, e.g. a boolean or an
array). -/
inductive TomlVal where
  | str (s : String)
  | nonStr
deriving DecidableEq

/-- A dependency entry as `write_dependency_field_value` classifies them:
version-string shorthand, a table-like value with named fields, or a value
that is neither (toml_edit reports an error for those). -/
inductive DepEntry where
  | str (s : String)
  | table (fields : List (String × TomlVal))
  | other
deriving DecidableEq

/-- Field lookup in a table-like value (`TableLike::get`). -/
def tableGet (fields : List (String × TomlVal)) (k : String) : Option TomlVal :=
  (fields.find? (fun f => f.1 = k)).map (fun f => f.2)

/-- Field insertion in a table-like value (`TableLike::insert`): replace the
value in place when the key is present, else append the pair at the end. -/
def tableInsert (fields : List (String × TomlVal)) (k : String) (v : TomlVal) :
    List (String × TomlVal) :=
  match fields with
  | [] => [(k, v)]
  | (k1, v1) :: rest => if k1 = k then (k, v) :: rest else (k1, v1) :: tableInsert rest k v

/-- Field removal in a table-like value (`TableLike::remove`). -/
def tableRemove (fields : List (String × TomlVal)) (k : String) :
    List (String × TomlVal) :=
  fields.filter (fun f => ¬ f.1 = k)

/-- Removal of every field named in `ftr`, in order (`for f in fields_to_remove
{ value.remove(f) }`). -/
def tableRemoveAll (ftr : List String) (fields : List (String × TomlVal)) :
    List (String × TomlVal) :=
  ftr.foldl (fun acc f => tableRemove acc f) fields

/-- The arguments of `write_dependency_field_value` other than the manifest. -/
structure EditArgs where
  deps : List String
  fieldsToRemove : List String
  field : String
  fieldValue : String
  overwriteStrValue : Bool

/-- Embedding of `edit_tablelike_dep` (src/dependencies.rs, lines 81–103):
refuse entries with a `workspace` marker, otherwise set `field = value` and
drop each field listed in `fields_to_remove`. -/
def edit_tablelike_dep (a : EditArgs) (value : List (String × TomlVal)) :
    Except Unit (List (String × TomlVal)) :=
  if (tableGet value "workspace").isSome then .error ()
  else .ok (tableRemoveAll a.fieldsToRemove (tableInsert value a.field (.str a.fieldValue)))

/-- One entry of the `visit` loop in `write_dependency_field_value`
(src/dependencies.rs, lines 107–162).  Returns the rewritten entry together
with the `modified` contribution. -/
def processDepEntry (a : EditArgs) (key : String) (e : DepEntry) :
    Except Unit (DepEntry × Bool) :=
  match e with
  | .table fields =>
    match tableGet fields "package" with
    | some (.str pkg) =>
      if a.deps.contains pkg then
        match edit_tablelike_dep a fields with
        | .error _ => .error ()
        | .ok fields2 => .ok (.table fields2, true)
      else .ok (.table fields, false)
    | some .nonStr => .error ()
    | none =>
      if a.deps.contains key then
        match edit_tablelike_dep a fields with
        | .error _ => .error ()
        | .ok fields2 => .ok (.table fields2, true)
      else .ok (.table fields, false)
  | .str version =>
    if a.deps.contains key then
      if a.overwriteStrValue then .ok (.str a.fieldValue, true)
      else
        .ok (.table (tableInsert (tableInsert [] "version" (.str version))
              a.field (.str a.fieldValue)), true)
    else .ok (.str version, false)
  | .other => .error ()

/-- The `visit` loop over one dependency table: entries are rewritten in
order, the first error aborts, and `modified` flags are or-ed. -/
def visitDepTable (a : EditArgs) : List (String × DepEntry) →
    Except Unit (List (String × DepEntry) × Bool)
  | [] => .ok ([], false)
  | (k, e) :: rest =>
    match processDepEntry a k e with
    | .error _ => .error ()
    | .ok (e2, m1) =>
      match visitDepTable a rest with
      | .error _ => .error ()
      | .ok (rest2, m2) => .ok ((k, e2) :: rest2, m1 || m2)

/-- The three dependency-table kinds (src/dependencies.rs, lines 8–16), in
`EnumIter` declaration order. -/
inductive CrateDependencyKey where
  | buildDependencies
  | dependencies
  | devDependencies
deriving DecidableEq

/-- The dependency tables of one `target.<cfg>` table.  Non-table shapes
under `target` are skipped by `get_target_dependency_sections_mut`
(`and_then(as_table_like_mut)`), so the model types them away. -/
structure TargetTables where
  buildDependencies : Option (List (String × DepEntry)) := none
  dependencies : Option (List (String × DepEntry)) := none
  devDependencies : Option (List (String × DepEntry)) := none
deriving DecidableEq

/-- A manifest document restricted to what the dependency editor visits: the
three top-level dependency tables and the `target.<cfg>` tables.  All other
document content is untouched by the editor and omitted from the model. -/
structure Manifest where
  buildDependencies : Option (List (String × DepEntry)) := none
  dependencies : Option (List (String × DepEntry)) := none
  devDependencies : Option (List (String × DepEntry)) := none
  target : List (String × TargetTables) := []
deriving DecidableEq

/-- Section selection for a dependency kind in a `target.<cfg>` table. -/
def TargetTables.getK (t : TargetTables) : CrateDependencyKey →
    Option (List (String × DepEntry))
  | .buildDependencies => t.buildDependencies
  | .dependencies => t.dependencies
  | .devDependencies => t.devDependencies

/-- Section update for a dependency kind in a `target.<cfg>` table. -/
def TargetTables.setK (t : TargetTables) :
    CrateDependencyKey → Option (List (String × DepEntry)) → TargetTables
  | .buildDependencies, s => { t with buildDependencies := s }
  | .dependencies, s => { t with dependencies := s }
  | .devDependencies, s => { t with devDependencies := s }

/-- Top-level section selection for a dependency kind. -/
def Manifest.getK (m : Manifest) : CrateDependencyKey →
    Option (List (String × DepEntry))
  | .buildDependencies => m.buildDependencies
  | .dependencies => m.dependencies
  | .devDependencies => m.devDependencies

/-- Top-level section update for a dependency kind. -/
def Manifest.setK (m : Manifest) :
    CrateDependencyKey → Option (List (String × DepEntry)) → Manifest
  | .buildDependencies, s => { m with buildDependencies := s }
  | .dependencies, s => { m with dependencies := s }
  | .devDependencies, s => { m with devDependencies := s }

/-- Visit an optional section: a missing section is skipped
(`document.get_mut` returning `None`). -/
def editOptTable (a : EditArgs) : Option (List (String × DepEntry)) →
    Except Unit (Option (List (String × DepEntry)) × Bool)
  | none => .ok (none, false)
  | some t =>
    match visitDepTable a t with
    | .error _ => .error ()
    | .ok (t2, m) => .ok (some t2, m)

/-- Visit the `k`-kind section of every `target.<cfg>` table, in document
order. -/
def editTargetsK (a : EditArgs) (k : CrateDependencyKey) :
    List (String × TargetTables) →
    Except Unit (List (String × TargetTables) × Bool)
  | [] => .ok ([], false)
  | (n, t) :: rest =>
    match editOptTable a (t.getK k) with
    | .error _ => .error ()
    | .ok (sec, m1) =>
      match editTargetsK a k rest with
      | .error _ => .error ()
      | .ok (rest2, m2) => .ok ((n, t.setK k sec) :: rest2, m1 || m2)

/-- One round of `edit_all_dependency_sections` for kind `k`: the top-level
section first, then the section under each `target.<cfg>`. -/
def editKeySections (a : EditArgs) (k : CrateDependencyKey) (m : Manifest) :
    Except Unit (Manifest × Bool) :=
  match editOptTable a (m.getK k) with
  | .error _ => .error ()
  | .ok (sec, m1) =>
    let m' := m.setK k sec
    match editTargetsK a k m'.target with
    | .error _ => .error ()
    | .ok (tgts, m2) => .ok ({ m' with target := tgts }, m1 || m2)

/-- Embedding of `write_dependency_field_value` (src/dependencies.rs, lines
53–190): visit the three dependency-table kinds in `EnumIter` order and
report whether any entry was modified (the function writes the file only in
that case). -/
def write_dependency_field_value (a : EditArgs) (m : Manifest) :
    Except Unit (Manifest × Bool) :=
  match editKeySections a .buildDependencies m with
  | .error _ => .error ()
  | .ok (m1, f1) =>
    match editKeySections a .dependencies m1 with
    | .error _ => .error ()
    | .ok (m2, f2) =>
      match editKeySections a .devDependencies m2 with
      | .error _ => .error ()
      | .ok (m3, f3) => .ok (m3, f1 || f2 || f3)

/-- The state of the manifest file on disk after one call: the document is
written back only when the call succeeded with `modified = true`; an error
or an unmodified run leaves the file bytes untouched. -/
def write_dependency_field_value_on_disk (a : EditArgs) (m : Manifest) : Manifest :=
  match write_dependency_field_value a m with
  | .ok (m2, true) => m2
  | .ok (_, false) => m
  | .error _ => m

/-- Whether the call writes the manifest file at all (`if modified {
write_toml(..) }`; every error path returns before that write). -/
def write_dependency_field_value_wrote (a : EditArgs) (m : Manifest) : Bool :=
  match write_dependency_field_value a m with
  | .ok (_, modified) => modified
  | .error _ => false

/-- Whether a dependency entry matches the given dependency names: its
logical name — the `package` field when present as a string, else the table
key — is one of the names. -/
def entryMatches (deps : List String) (key : String) : DepEntry → Bool
  | .table fields =>
    match tableGet fields "package" with
    | some (.str pkg) => deps.contains pkg
    | some .nonStr => false
    | none => deps.contains key
  | .str _ => deps.contains key
  | .other => deps.contains key

/-- Whether any entry of an optional dependency table matches. -/
def sectionHasMatch (deps : List String) : Option (List (String × DepEntry)) → Bool
  | none => false
  | some t => t.any (fun f => entryMatches deps f.1 f.2)

/-- Whether any entry in any dependency section of the manifest (top-level or
target-conditional, of any kind) matches the given dependency names. -/
def manifestHasMatch (deps : List String) (m : Manifest) : Bool :=
  sectionHasMatch deps m.buildDependencies ||
  sectionHasMatch deps m.dependencies ||
  sectionHasMatch deps m.devDependencies ||
  m.target.any (fun t =>
    sectionHasMatch deps t.2.buildDependencies ||
    sectionHasMatch deps t.2.dependencies ||
    sectionHasMatch deps t.2.devDependencies)

/-- A section on which rerunning the editor either errors or changes
nothing. -/
def SStable (a : EditArgs) (sec : Option (List (String × DepEntry))) : Prop :=
  editOptTable a sec = .error () ∨ ∃ b, editOptTable a sec = .ok (sec, b)

/-- A manifest whose `k`-kind sections (top level and in every target table)
are stable under rerunning the editor. -/
def MStable (a : EditArgs) (k : CrateDependencyKey) (m : Manifest) : Prop :=
  SStable a (m.getK k) ∧ ∀ p ∈ m.target, SStable a (p.2.getK k)

/-- One entry of the `publish_order` vector inside `get_publish_order`
(src/publish.rs, lines 929–932). -/
structure OrderedCrate where
  name : String
  rank : Nat
deriving DecidableEq

/-- The workspace as the solver reads it: each crate's name paired with its
publish-relevant dependency set (`deps_to_publish()`), listed in the hash
map's iteration order.  The dependency list stands for a `HashSet`, so
theorems assume it has no duplicates. -/
abbrev DepsWorkspace := List (String × List String)

/-- The names of the ordered crates, in order. -/
def namesOf (acc : List OrderedCrate) : List String := acc.map (fun oc => oc.name)

/-- Hash-map lookup by crate name (first matching key). -/
def lookupDeps (ws : DepsWorkspace) (n : String) : Option (List String) :=
  (ws.find? (fun kd => kd.1 = n)).map (fun kd => kd.2)

/-- The rank recorded for a name in the ordered list (0 when absent; the
solver only reads ranks of present names). -/
def rankOf (acc : List OrderedCrate) (n : String) : Nat :=
  match acc.find? (fun oc => oc.name = n) with
  | some oc => oc.rank
  | none => 0

/-- One crate considered during a pass of the solver loop: skip it if
already ordered; otherwise, if all of its dependencies are ordered, append
it with rank `1 + sum of the ordered dependencies' ranks` (the Rust fold
over `ordered_deps` starting from `1usize` with `checked_add`). -/
def orderStep (acc : List OrderedCrate) (kd : String × List String) :
    List OrderedCrate :=
  if acc.any (fun oc => oc.name = kd.1) then acc
  else if (acc.filter (fun oc => kd.2.contains oc.name)).length = kd.2.length then
    acc ++ [⟨kd.1,
      (acc.filter (fun oc => kd.2.contains oc.name)).foldl (fun r oc => r + oc.rank) 1⟩]
  else acc

/-- One pass of the solver loop over every crate of the workspace. -/
def orderPass (ws : DepsWorkspace) (acc : List OrderedCrate) : List OrderedCrate :=
  ws.foldl orderStep acc

/-- The solver loop: repeat passes until one makes no progress.  A pass
makes progress exactly when it pushed a crate, i.e. when the length grew.
The Rust loop is unbounded but each productive pass appends at least one
crate, so `ws.length + 1` passes always reach the no-progress exit; the
fuel only formalises that termination argument. -/
def orderLoop (ws : DepsWorkspace) : Nat → List OrderedCrate → List OrderedCrate
  | 0, acc => acc
  | fuel + 1, acc =>
    let acc2 := orderPass ws acc
    if acc2.length = acc.length then acc
    else orderLoop ws fuel acc2

/-- The final `sort_by` comparator (src/publish.rs, lines 962–968):
ascending rank, ties broken by ascending name.  Rust compares `String`s
bytewise, which on valid UTF-8 coincides with comparing the scalar-value
sequences `String.data`. -/
def ocLE (x y : OrderedCrate) : Prop :=
  x.rank < y.rank ∨ (x.rank = y.rank ∧ x.name.data ≤ y.name.data)

instance : DecidableRel ocLE := fun x y => by
  unfold ocLE
  infer_instance

instance : IsTotal OrderedCrate ocLE :=
  ⟨by
    intro a b
    unfold ocLE
    rcases Nat.lt_trichotomy a.rank b.rank with h | h | h
    · exact Or.inl (Or.inl h)
    · rcases le_total a.name.data b.name.data with h2 | h2
      · exact Or.inl (Or.inr ⟨h, h2⟩)
      · exact Or.inr (Or.inr ⟨h.symm, h2⟩)
    · exact Or.inr (Or.inl h)⟩

instance : IsTrans OrderedCrate ocLE :=
  ⟨by
    intro a b c hab hbc
    unfold ocLE at hab hbc ⊢
    rcases hab with h1 | ⟨h1, h1n⟩ <;> rcases hbc with h2 | ⟨h2, h2n⟩
    · exact Or.inl (lt_trans h1 h2)
    · exact Or.inl (h2 ▸ h1)
    · exact Or.inl (h1 ▸ h2)
    · exact Or.inr ⟨h1.trans h2, le_trans h1n h2n⟩⟩

instance : IsAntisymm OrderedCrate ocLE :=
  ⟨by
    intro a b hab hba
    unfold ocLE at hab hba
    rcases hab with h1 | ⟨h1, h1n⟩
    · rcases hba with h2 | ⟨h2, _⟩
      · exact absurd (lt_trans h1 h2) (lt_irrefl _)
      · exact absurd h1 (by rw [h2]; exact lt_irrefl _)
    · rcases hba with h2 | ⟨h2, h2n⟩
      · exact absurd h2 (by rw [h1]; exact lt_irrefl _)
      · obtain ⟨na, ra⟩ := a
        obtain ⟨nb, rb⟩ := b
        obtain ⟨da⟩ := na
        obtain ⟨db⟩ := nb
        simp only at h1 h1n h2n
        rw [h1, le_antisymm h1n h2n]⟩

/-- Embedding of `get_publish_order` (src/publish.rs, lines 926–974): run
the rank-assignment loop, sort by (rank, name), and keep the names.  Rust's
`sort_by` is a stable sort, and since ordered names are distinct the
comparator never ties, so any sorting algorithm returns the same list;
`insertionSort` is used here. -/
def get_publish_order (ws : DepsWorkspace) : List String :=
  (List.insertionSort ocLE (orderLoop ws (ws.length + 1) [])).map (fun oc => oc.name)

/-- The crates on which the solver can make progress: a crate is grounded
when it is in the workspace and all its publish-relevant dependencies are
grounded.  For an acyclic workspace every crate is grounded; crates on or
downstream of a dependency cycle (or with a dangling dependency) are not,
and are exactly the ones the loop never orders. -/
inductive Grounded (ws : DepsWorkspace) : String → Prop where
  | mk (k : String) (deps : List String) (hk : lookupDeps ws k = some deps)
      (hdeps : ∀ d ∈ deps, Grounded ws d) : Grounded ws k

/-- The solver-loop invariant: ordered names are distinct, and every ordered
crate is a workspace crate whose dependencies were all ordered strictly
earlier, with rank `1 + sum of its dependencies' ranks`. -/
def WFAcc (ws : DepsWorkspace) (acc : List OrderedCrate) : Prop :=
  (namesOf acc).Nodup ∧
  ∀ i (h : i < acc.length),
    ∃ deps, lookupDeps ws acc[i].name = some deps ∧
      (∀ d ∈ deps, d ∈ namesOf (acc.take i)) ∧
      acc[i].rank = 1 + (deps.map (rankOf acc)).sum

/-- A workspace crate as `publish.rs`'s pipeline reads it: the names yielded
by `deps_to_publish()` and the `should_be_published` flag
(src/crate_details.rs). -/
structure PCrate where
  deps : List String
  shouldBePublished : Bool
deriving DecidableEq

/-- The workspace crate map (`workspace.crates : HashMap<String, CrateDetails>`)
as an association list with set semantics: only key membership and lookup are
used downstream. -/
abbrev PWorkspace := List (String × PCrate)

/-- `workspace.crates.get(name)`. -/
def lookupCrate (ws : PWorkspace) (n : String) : Option PCrate :=
  (ws.find? (fun kc => kc.1 = n)).map (fun kc => kc.2)

/-- The name-to-dependencies view of the workspace that `get_publish_order`
consumes. -/
def depsWs (ws : PWorkspace) : DepsWorkspace :=
  ws.map (fun kc => (kc.1, kc.2.deps))

/-- Total number of dependency edges; used to size the registration fuel. -/
def totalDeps (ws : PWorkspace) : Nat :=
  (ws.map (fun kc => kc.2.deps.length)).sum

/-- The `PublishOpts` fields that decide which crates a run selects and
publishes (src/publish.rs); `stopAtValidation` models
`--stop-at-step validation`. -/
structure RunOpts where
  publishOnly : List String
  startFrom : Option String
  includeCratesDependents : Bool
  exclude : List String
  stopAtValidation : Bool

/-- One sweep of the exclusion-expansion body: walk `publish_order`, look every
crate up (`Crate not found` aborts), and add each crate depending on a
crate of the pass-start snapshot (src/publish.rs `crates_to_exclude`). -/
def excludePassGo (ws : PWorkspace) (snapshot : List String) :
    List String → List String → Except Unit (List String)
  | acc, [] => Except.ok acc
  | acc, k :: rest =>
    match lookupCrate ws k with
    | none => Except.error ()
    | some c =>
      if c.deps.any (fun d => snapshot.contains d) && !(acc.contains k) then
        excludePassGo ws snapshot (acc ++ [k]) rest
      else
        excludePassGo ws snapshot acc rest

/-- The `loop { ... if !progressed break }` around the exclusion sweeps; a
productive pass grows the set, so `order.length + 1` passes reach the
source loop's fixpoint. -/
def excludeLoop (ws : PWorkspace) (order : List String) :
    Nat → List String → Except Unit (List String)
  | 0, acc => Except.ok acc
  | fuel + 1, acc =>
    match excludePassGo ws acc acc order with
    | Except.error e => Except.error e
    | Except.ok next =>
      if next.length = acc.length then Except.ok next
      else excludeLoop ws order fuel next

/-- The candidate filter when `--publish-only` is not given: keep
`start_from` unconditionally, drop excluded crates, error on unknown crates,
keep exactly the `should_be_published` ones (src/publish.rs
`candidate_crates`, first branch). -/
def candidatesA (ws : PWorkspace) (excl : List String) (startFrom : Option String) :
    List String → Except Unit (List String)
  | [] => Except.ok []
  | k :: rest =>
    if startFrom = some k then
      match candidatesA ws excl startFrom rest with
      | Except.error e => Except.error e
      | Except.ok cs => Except.ok (k :: cs)
    else if excl.contains k then
      candidatesA ws excl startFrom rest
    else
      match lookupCrate ws k with
      | some c =>
        if c.shouldBePublished then
          match candidatesA ws excl startFrom rest with
          | Except.error e => Except.error e
          | Except.ok cs => Except.ok (k :: cs)
        else candidatesA ws excl startFrom rest
      | none => Except.error ()

/-- One sweep of the `--include-crates-dependents` expansion: skip excluded
crates, look the rest up, and add publishable crates depending on a crate of
the pass-start snapshot (src/publish.rs `crates_to_include`). -/
def includePassGo (ws : PWorkspace) (excl : List String) (snapshot : List String) :
    List String → List String → Except Unit (List String)
  | acc, [] => Except.ok acc
  | acc, k :: rest =>
    if excl.contains k then includePassGo ws excl snapshot acc rest
    else
      match lookupCrate ws k with
      | none => Except.error ()
      | some c =>
        if c.shouldBePublished && c.deps.any (fun d => snapshot.contains d)
            && !(acc.contains k) then
          includePassGo ws excl snapshot (acc ++ [k]) rest
        else includePassGo ws excl snapshot acc rest

/-- The progress loop around the dependents-expansion sweeps. -/
def includeLoop (ws : PWorkspace) (order : List String) (excl : List String) :
    Nat → List String → Except Unit (List String)
  | 0, acc => Except.ok acc
  | fuel + 1, acc =>
    match includePassGo ws excl acc acc order with
    | Except.error e => Except.error e
    | Except.ok next =>
      if next.length = acc.length then Except.ok next
      else includeLoop ws order excl fuel next

/-- `candidate_crates`: either the filter over the whole publish order, or
the `--publish-only` seeds (optionally closed under dependents) intersected
with the publish order. -/
def candidates (ws : PWorkspace) (order : List String) (excl : List String)
    (opts : RunOpts) : Except Unit (List String) :=
  if opts.publishOnly.isEmpty then
    candidatesA ws excl opts.startFrom order
  else if opts.includeCratesDependents then
    match includeLoop ws order excl (order.length + 1) opts.publishOnly with
    | Except.error e => Except.error e
    | Except.ok incl => Except.ok (order.filter (fun k => incl.contains k))
  else
    Except.ok (order.filter (fun k => opts.publishOnly.contains k))

/-- The `retain_mut` body for `--start-from`: drop everything before the
first occurrence of `start_from`, dropping `start_from` itself when it is
excluded (src/publish.rs `selected_crates`). -/
def retainGo (startFrom : String) (excl : List String) :
    Bool → List String → List String
  | _, [] => []
  | keep, c :: rest =>
    if c = startFrom then
      if excl.contains c then retainGo startFrom excl true rest
      else c :: retainGo startFrom excl true rest
    else if keep then c :: retainGo startFrom excl keep rest
    else retainGo startFrom excl keep rest

/-- `selected_crates`: the candidates, trimmed from `--start-from` when set. -/
def retainFrom (startFrom : Option String) (excl : List String)
    (cands : List String) : List String :=
  match startFrom with
  | none => cands
  | some k => retainGo k excl false cands

/-- `validate_crates` (src/publish.rs): succeed on a crate already on the
visited path, fail on an excluded crate, an unknown crate, or a
non-publishable crate, else recurse into `deps_to_publish()` with the crate
appended to the path.  Fuel exhaustion counts as failure; the recursion
depth is bounded by the duplicate-free visited path, so `ws.length + 2` fuel
never exhausts. -/
def validateCrate (ws : PWorkspace) (excl : List String) :
    Nat → List String → String → Bool
  | 0, _, _ => false
  | fuel + 1, visited, k =>
    if visited.contains k then true
    else if excl.contains k then false
    else
      match lookupCrate ws k with
      | none => false
      | some c =>
        if c.shouldBePublished then
          c.deps.all (fun d => validateCrate ws excl fuel (visited ++ [k]) d)
        else false

/-- `register_crates` (src/crates.rs): depth-first registration of a crate
and its `deps_to_publish()` closure into a global set, erroring on unknown
crates; presented as a worklist, which computes the same set because
`registered_crates` is an unordered `HashSet`. -/
def registerCrates (ws : PWorkspace) :
    Nat → List String → List String → Except Unit (List String)
  | _, reg, [] => Except.ok reg
  | 0, _, _ :: _ => Except.error ()
  | fuel + 1, reg, k :: pending =>
    if reg.contains k then registerCrates ws fuel reg pending
    else
      match lookupCrate ws k with
      | none => Except.error ()
      | some c => registerCrates ws fuel (reg ++ [k]) (c.deps ++ pending)

/-- `what_needs_publishing` (src/crates.rs): the publish order filtered to
the crate's registered dependency closure. -/
def what_needs_publishing (ws : PWorkspace) (order : List String) (k : String) :
    Except Unit (List String) :=
  match registerCrates ws (totalDeps ws + ws.length + 2) [] [k] with
  | Except.error e => Except.error e
  | Except.ok reg => Except.ok (order.filter (fun o => reg.contains o))

/-- The mutable state of the main publishing loop: `processed_crates` and the
crates actually handed to `workspace.publish`. -/
structure LoopState where
  processed : List String
  published : List String

/-- One crate of the inner publishing walk: mark it processed and, when the
`needs_publishing()` oracle says so, hand it to `workspace.publish`. -/
def pubStep (needsPub : String → Bool) (s : LoopState) (k : String) : LoopState :=
  { processed := s.processed ++ [k],
    published := if needsPub k then s.published ++ [k] else s.published }

/-- The body of the main loop for one selected crate: skip if already
processed, compute `what_needs_publishing`, then walk the not-yet-processed
part in order, publishing each crate whose `needs_publishing()` oracle says
so and marking it processed (src/publish.rs main `for sel_crate` loop). -/
def processSel (ws : PWorkspace) (order : List String) (needsPub : String → Bool)
    (st : LoopState) (sel : String) : Except Unit LoopState :=
  if st.processed.contains sel then Except.ok st
  else
    match what_needs_publishing ws order sel with
    | Except.error e => Except.error e
    | Except.ok ctp =>
      let toDo := ctp.filter (fun k => !(st.processed.contains k))
      let st' := toDo.foldl (pubStep needsPub) st
      Except.ok { st' with processed := st'.processed ++ [sel] }

/-- The main loop over the selected crates. -/
def runLoop (ws : PWorkspace) (order : List String) (needsPub : String → Bool) :
    LoopState → List String → Except Unit LoopState
  | st, [] => Except.ok st
  | st, sel :: rest =>
    match processSel ws order needsPub st sel with
    | Except.error e => Except.error e
    | Except.ok st' => runLoop ws order needsPub st' rest

/-- What a successful run reports: the selected crates and the crates handed
to `workspace.publish`, in order. -/
structure RunResult where
  selected : List String
  published : List String

/-- The selection-and-publish pipeline of `publish()` (src/publish.rs): the
publish order and the completeness check on it, exclusion expansion,
candidate selection, `--start-from` trimming, the emptiness check,
`validate_crates` over every selected crate (any failure aborts before any
publishing), the `--stop-at-step validation` early return, and the main
publishing loop.  `needsPub` is the oracle for the network-dependent
`needs_publishing()`. -/
def publishRun (ws : PWorkspace) (needsPub : String → Bool) (opts : RunOpts) :
    Except Unit RunResult :=
  let order := get_publish_order (depsWs ws)
  if ws.all (fun kc => order.contains kc.1) then
    match excludeLoop ws order (order.length + 1) opts.exclude with
    | Except.error e => Except.error e
    | Except.ok excl =>
      match candidates ws order excl opts with
      | Except.error e => Except.error e
      | Except.ok cands =>
        let selected := retainFrom opts.startFrom excl cands
        if selected.isEmpty then Except.error ()
        else if selected.all (fun s => validateCrate ws excl (ws.length + 2) [] s) then
          if opts.stopAtValidation then
            Except.ok { selected := selected, published := [] }
          else
            match runLoop ws order needsPub { processed := [], published := [] } selected with
            | Except.error e => Except.error e
            | Except.ok st => Except.ok { selected := selected, published := st.published }
        else Except.error ()
  else Except.error ()

/-- Reachability along `deps_to_publish()` edges, reflexively: the
transitive publish-relevant dependency closure. -/
inductive Reaches (ws : PWorkspace) : String → String → Prop where
  | refl (k : String) : Reaches ws k k
  | step (k d q : String) (c : PCrate) (hk : lookupCrate ws k = some c)
      (hd : d ∈ c.deps) (hq : Reaches ws d q) : Reaches ws k q

/-! ## Theorems -/

/-- Unfolding of the lifted order on versions. -/
theorem Version.lt_iff_encode (a b : Version) : a < b ↔ a.encode < b.encode := Iff.rfl

theorem Version.clearPre_lt (v : Version) (h : v.pre ≠ []) : v < v.clearPre := by
  rw [Version.lt_iff_encode]
  show toLex (v.major, _) < toLex (v.major, _)
  rw [Prod.Lex.lt_iff]
  refine Or.inr ⟨rfl, ?_⟩
  rw [Prod.Lex.lt_iff]
  refine Or.inr ⟨rfl, ?_⟩
  rw [Prod.Lex.lt_iff]
  refine Or.inr ⟨rfl, ?_⟩
  rw [Prod.Lex.lt_iff]
  left
  simp [Version.clearPre, h]

theorem Version.lt_of_minor_lt (a b : Version) (h1 : a.major = b.major)
    (h2 : a.minor < b.minor) : a < b := by
  rw [Version.lt_iff_encode]
  unfold Version.encode
  rw [Prod.Lex.lt_iff]
  exact Or.inr ⟨by rw [h1], by rw [Prod.Lex.lt_iff]; exact Or.inl h2⟩

theorem Version.lt_of_major_lt (a b : Version) (h1 : a.major < b.major) : a < b := by
  rw [Version.lt_iff_encode]
  unfold Version.encode
  rw [Prod.Lex.lt_iff]
  exact Or.inl h1

/-- Any version is strictly smaller than its breaking bump. -/
theorem Version.lt_bump_for_breaking_change (v : Version) :
    v < bump_for_breaking_change v := by
  unfold bump_for_breaking_change
  by_cases hp : v.pre = []
  · rw [if_neg (by simp [hp])]
    by_cases hm : v.major = 0
    · rw [if_pos hm]
      exact Version.lt_of_minor_lt _ _ rfl (Nat.lt_succ_self _)
    · rw [if_neg hm]
      exact Version.lt_of_major_lt _ _ (Nat.lt_succ_self _)
  · rw [if_pos hp]
    exact Version.clearPre_lt v hp

theorem iterMax_le (l : List Version) (m : Version) (h : iterMax l = some m) :
    ∀ x ∈ l, x ≤ m := by
  match l with
  | [] => simp
  | v :: rest =>
    simp only [iterMax, Option.some.injEq] at h
    subst h
    have key : ∀ (acc : Version) (r : List Version),
        acc ≤ r.foldl (fun acc x => if acc ≤ x then x else acc) acc ∧
        ∀ x ∈ r, x ≤ r.foldl (fun acc x => if acc ≤ x then x else acc) acc := by
      intro acc r
      induction r generalizing acc with
      | nil => simp
      | cons y ys ih =>
        simp only [List.foldl_cons, List.mem_cons]
        by_cases hle : acc ≤ y
        · simp only [hle, if_true]
          refine ⟨le_trans hle (ih y).1, ?_⟩
          rintro x (rfl | hx)
          · exact (ih x).1
          · exact (ih y).2 x hx
        · simp only [hle, if_false]
          refine ⟨(ih acc).1, ?_⟩
          rintro x (rfl | hx)
          · exact le_trans (le_of_not_le hle) (ih acc).1
          · exact (ih acc).2 x hx
    intro x hx
    rcases List.mem_cons.mp hx with rfl | hx
    · exact (key x rest).1
    · exact (key v rest).2 x hx

theorem iterMax_mem (l : List Version) (m : Version) (h : iterMax l = some m) :
    m ∈ l := by
  match l with
  | [] => simp [iterMax] at h
  | v :: rest =>
    simp only [iterMax, Option.some.injEq] at h
    subst h
    have key : ∀ (acc : Version) (r : List Version),
        r.foldl (fun acc x => if acc ≤ x then x else acc) acc = acc ∨
        r.foldl (fun acc x => if acc ≤ x then x else acc) acc ∈ r := by
      intro acc r
      induction r generalizing acc with
      | nil => simp
      | cons y ys ih =>
        simp only [List.foldl_cons, List.mem_cons]
        by_cases hle : acc ≤ y
        · simp only [hle, if_true]
          rcases ih y with h | h
          · exact Or.inr (Or.inl h)
          · exact Or.inr (Or.inr h)
        · simp only [hle, if_false]
          rcases ih acc with h | h
          · exact Or.inl h
          · exact Or.inr (Or.inr h)
    rcases key v rest with h | h
    · rw [h]
      exact List.mem_cons_self _ _
    · exact List.mem_cons_of_mem _ h

theorem iterMax_eq_none (l : List Version) : iterMax l = none ↔ l = [] := by
  cases l <;> simp [iterMax]

/-- If `L` is a maximum element of `P`, the embedded `Iterator::max` returns
exactly `L`. -/
theorem iterMax_of_isMax (P : List Version) (L : Version) (hmem : L ∈ P)
    (hmax : ∀ p ∈ P, p ≤ L) : iterMax P = some L := by
  match hM : iterMax P with
  | none =>
    rw [iterMax_eq_none] at hM
    subst hM
    simp at hmem
  | some m =>
    have h1 : m ≤ L := hmax m (iterMax_mem P m hM)
    have h2 : L ≤ m := iterMax_le P m hM L hmem
    rw [le_antisymm h1 h2]

/-- C2, counterexample.  With previous versions `P = [0.5.0]` and current
version `C = 1.0.0-dev`, the maximum `M = max(C, L) = 1.0.0-dev` carries a
pre-release tag, and `bump_for_breaking_change` then only clears the tag:
the code returns `Some 1.0.0`, while the claim's recipe (clear the tag, then
increment major since `M.major ≠ 0`) demands `Some 2.0.0`. -/
theorem C2_counterexample :
    maybe_bump_for_breaking_change [⟨0, 5, 0, []⟩] ⟨1, 0, 0, [.alphanum ['d', 'e', 'v']]⟩ =
      some ⟨1, 0, 0, []⟩ ∧
    C2claimedResult [⟨0, 5, 0, []⟩] ⟨1, 0, 0, [.alphanum ['d', 'e', 'v']]⟩ =
      some ⟨2, 0, 0, []⟩ ∧
    maybe_bump_for_breaking_change [⟨0, 5, 0, []⟩] ⟨1, 0, 0, [.alphanum ['d', 'e', 'v']]⟩ ≠
      C2claimedResult [⟨0, 5, 0, []⟩] ⟨1, 0, 0, [.alphanum ['d', 'e', 'v']]⟩ := by
  refine ⟨by decide, by decide, by decide⟩

/-- C2, amended.  For every non-empty list of previously published versions
`P` with maximum `L` and every current version `C`,
`maybe_bump_for_breaking_change` returns `Some V` where, with
`M = max(C, L)`: if `M` has a pre-release tag, `V` is `M` with the tag
cleared (no component is incremented); otherwise if `M.major == 0`, `V`
increments minor and zeros patch; otherwise `V` increments major and zeros
minor and patch. -/
theorem C2_amended (P : List Version) (C L : Version) (hmem : L ∈ P)
    (hmax : ∀ p ∈ P, p ≤ L) :
    maybe_bump_for_breaking_change P C =
      some (if (max C L).pre ≠ [] then (max C L).clearPre
            else if (max C L).major = 0 then
              ⟨(max C L).major, (max C L).minor + 1, 0, []⟩
            else ⟨(max C L).major + 1, 0, 0, []⟩) := by
  unfold maybe_bump_for_breaking_change
  rw [iterMax_of_isMax P L hmem hmax]
  have hpick : (if L < C then C else L) = max C L := by
    by_cases h : L < C
    · rw [if_pos h, max_eq_left (le_of_lt h)]
    · rw [if_neg h, max_eq_right (le_of_not_lt h)]
  simp only [hpick]
  congr 1
  unfold bump_for_breaking_change
  by_cases hp : (max C L).pre = []
  · by_cases hm : (max C L).major = 0
    · simp [hp, hm, Version.clearPre]
    · simp [hp, hm, Version.clearPre]
  · simp [hp, Version.clearPre]

/-- C2, amended, witness at `P = [0.5.0]`, `C = 1.0.0-dev`. -/
theorem C2_amended_witness :
    maybe_bump_for_breaking_change [⟨0, 5, 0, []⟩] ⟨1, 0, 0, [.alphanum ['d', 'e', 'v']]⟩ =
      some (if (max ⟨1, 0, 0, [.alphanum ['d', 'e', 'v']]⟩ ⟨0, 5, 0, []⟩ : Version).pre ≠ []
            then (max ⟨1, 0, 0, [.alphanum ['d', 'e', 'v']]⟩ ⟨0, 5, 0, []⟩ : Version).clearPre
            else if (max ⟨1, 0, 0, [.alphanum ['d', 'e', 'v']]⟩ ⟨0, 5, 0, []⟩ : Version).major = 0
            then ⟨(max ⟨1, 0, 0, [.alphanum ['d', 'e', 'v']]⟩ ⟨0, 5, 0, []⟩ : Version).major,
                  (max ⟨1, 0, 0, [.alphanum ['d', 'e', 'v']]⟩ ⟨0, 5, 0, []⟩ : Version).minor + 1,
                  0, []⟩
            else ⟨(max ⟨1, 0, 0, [.alphanum ['d', 'e', 'v']]⟩ ⟨0, 5, 0, []⟩ : Version).major + 1,
                  0, 0, []⟩) :=
  C2_amended [⟨0, 5, 0, []⟩] ⟨1, 0, 0, [.alphanum ['d', 'e', 'v']]⟩ ⟨0, 5, 0, []⟩
    (by decide) (by decide)

/-- C6.  Whenever `maybe_bump_for_breaking_change` does not return "no
change", its output version is strictly greater under semver precedence than
every version in the input list of previous versions and strictly greater
than the input current version. -/
theorem C6_bump_monotone (P : List Version) (C v : Version)
    (h : maybe_bump_for_breaking_change P C = some v) :
    (∀ p ∈ P, p < v) ∧ C < v := by
  unfold maybe_bump_for_breaking_change at h
  match hM : iterMax P with
  | some L =>
    rw [hM] at h
    simp only [Option.some.injEq] at h
    subst h
    set M := if L < C then C else L with hMdef
    have hLM : L ≤ M := by
      rw [hMdef]
      by_cases hc : L < C
      · rw [if_pos hc]; exact le_of_lt hc
      · rw [if_neg hc]
    have hCM : C ≤ M := by
      rw [hMdef]
      by_cases hc : L < C
      · rw [if_pos hc]
      · rw [if_neg hc]; exact le_of_not_lt hc
    have hbump : M < bump_for_breaking_change M := Version.lt_bump_for_breaking_change M
    constructor
    · intro p hp
      exact lt_of_le_of_lt (le_trans (iterMax_le P L hM p hp) hLM) hbump
    · exact lt_of_le_of_lt hCM hbump
  | none =>
    rw [hM] at h
    by_cases hc : C.pre = []
    · rw [if_pos hc] at h
      exact absurd h (by simp)
    · rw [if_neg hc] at h
      simp only [Option.some.injEq] at h
      subst h
      refine ⟨?_, Version.clearPre_lt C hc⟩
      intro p hp
      rw [iterMax_eq_none] at hM
      subst hM
      simp at hp

/-- C6, witness at `P = []`, `C = 1.0.0-dev`: the bump returns `1.0.0`,
which is strictly greater than `1.0.0-dev`. -/
theorem C6_bump_monotone_witness :
    (∀ p ∈ ([] : List Version), p < ⟨1, 0, 0, []⟩) ∧
    (⟨1, 0, 0, [.alphanum ['d', 'e', 'v']]⟩ : Version) < ⟨1, 0, 0, []⟩ :=
  C6_bump_monotone [] ⟨1, 0, 0, [.alphanum ['d', 'e', 'v']]⟩ ⟨1, 0, 0, []⟩ (by decide)

/-- C7.  `should_be_published` is true when the manifest has no `publish`
field, and for a registry-list `publish` field it is true exactly when the
list is non-empty. -/
theorem C7_should_be_published :
    should_be_published none = true ∧
    ∀ registries : List String,
      (should_be_published (some registries) = true ↔ registries ≠ []) := by
  refine ⟨rfl, ?_⟩
  intro registries
  cases registries <;> simp [should_be_published]

/-- C9, counterexample.  For the single-byte crate name `A` (byte 65) the
code produces the path `1/A` (bytes `[49, 47, 65]`): the crate-name
component keeps its case, while the claim demands the fully lowercased
`1/a` (bytes `[49, 47, 97]`). -/
theorem C9_counterexample :
    indexMetadataPath [65] = [49, 47, 65] ∧
    C9claimedPath [65] = [49, 47, 97] ∧
    indexMetadataPath [65] ≠ C9claimedPath [65] := by
  refine ⟨by decide, by decide, by decide⟩

/-- C9, amended.  For every crate name `n` of length at least 1, the index
metadata path equals `1/n` for length 1, `2/n` for length 2, `3/<n[0]>/n`
for length 3, and `<n[0..2]>/<n[2..4]>/n` for length 4 or more, where the
prefix bytes drawn from the name are ASCII-lowercased but the final
crate-name component is used unchanged. -/
theorem C9_amended (n : List Nat) (h : 1 ≤ n.length) :
    indexMetadataPath n =
      (if n.length = 1 then [49, 47] ++ n
       else if n.length = 2 then [50, 47] ++ n
       else if n.length = 3 then
         [51, 47] ++ (n.take 1).map asciiLowerByte ++ [47] ++ n
       else
         (n.take 2).map asciiLowerByte ++ [47] ++
           ((n.drop 2).take 2).map asciiLowerByte ++ [47] ++ n) := by
  unfold indexMetadataPath cratesio_index_crate_path
  match hl : n.length with
  | 0 => omega
  | 1 => simp
  | 2 => simp
  | 3 => simp
  | k + 4 => simp [hl]

theorem tableRemoveAll_eq_filter (ftr : List String) (t : List (String × TomlVal)) :
    tableRemoveAll ftr t = t.filter (fun f => !ftr.contains f.1) := by
  induction ftr generalizing t with
  | nil => simp [tableRemoveAll]
  | cons f fs ih =>
    have step : tableRemoveAll (f :: fs) t = tableRemoveAll fs (tableRemove t f) := rfl
    rw [step, ih, tableRemove, List.filter_filter]
    congr 1
    funext x
    by_cases h1 : x.1 = f <;> by_cases h2 : fs.contains x.1 <;>
      simp [h1, h2, List.contains_cons]

theorem tableGet_insert_self (t : List (String × TomlVal)) (k : String) (v : TomlVal) :
    tableGet (tableInsert t k v) k = some v := by
  induction t with
  | nil => simp [tableInsert, tableGet, List.find?]
  | cons f rest ih =>
    obtain ⟨k1, v1⟩ := f
    by_cases h : k1 = k
    · simp [tableInsert, h, tableGet, List.find?]
    · simp only [tableInsert, if_neg h]
      simpa [tableGet, List.find?, h] using ih

theorem tableGet_insert_ne (t : List (String × TomlVal)) (k k' : String) (v : TomlVal)
    (hne : k' ≠ k) : tableGet (tableInsert t k v) k' = tableGet t k' := by
  induction t with
  | nil => simp [tableInsert, tableGet, List.find?, Ne.symm hne]
  | cons f rest ih =>
    obtain ⟨k1, v1⟩ := f
    by_cases h : k1 = k
    · subst h
      simp [tableInsert, tableGet, List.find?, Ne.symm hne]
    · simp only [tableInsert, if_neg h]
      by_cases h2 : k1 = k'
      · simp [tableGet, List.find?, h2]
      · simpa [tableGet, List.find?, h2] using ih

theorem tableInsert_of_get_eq (t : List (String × TomlVal)) (k : String) (v : TomlVal)
    (h : tableGet t k = some v) : tableInsert t k v = t := by
  induction t with
  | nil => simp [tableGet, List.find?] at h
  | cons f rest ih =>
    obtain ⟨k1, v1⟩ := f
    by_cases h1 : k1 = k
    · subst h1
      simp [tableGet, List.find?] at h
      simp [tableInsert, h]
    · simp only [tableGet, List.find?, h1] at h
      simp only [tableInsert, if_neg h1, List.cons.injEq, true_and]
      exact ih (by simpa [tableGet, h1] using h)

theorem tableInsert_of_get_none (t : List (String × TomlVal)) (k : String) (v : TomlVal)
    (h : tableGet t k = none) : tableInsert t k v = t ++ [(k, v)] := by
  induction t with
  | nil => simp [tableInsert]
  | cons f rest ih =>
    obtain ⟨k1, v1⟩ := f
    by_cases h1 : k1 = k
    · subst h1
      simp [tableGet, List.find?] at h
    · simp only [tableInsert, if_neg h1, List.cons_append, List.cons.injEq, true_and]
      exact ih (by simpa [tableGet, List.find?, h1] using h)

theorem tableGet_filter_none (t : List (String × TomlVal)) (k : String)
    (p : String × TomlVal → Bool) (hp : ∀ f, f.1 = k → p f = false) :
    tableGet (t.filter p) k = none := by
  induction t with
  | nil => simp [tableGet]
  | cons f rest ih =>
    by_cases h1 : f.1 = k
    · rw [List.filter_cons, hp f h1]
      exact ih
    · rw [List.filter_cons]
      by_cases h2 : p f = true
      · simpa [h2, tableGet, List.find?, h1] using ih
      · rw [eq_false_of_ne_true h2]
        exact ih

theorem tableGet_filter_of_true (t : List (String × TomlVal)) (k : String)
    (p : String × TomlVal → Bool) (hp : ∀ f, f.1 = k → p f = true) :
    tableGet (t.filter p) k = tableGet t k := by
  induction t with
  | nil => simp
  | cons f rest ih =>
    by_cases h1 : f.1 = k
    · rw [List.filter_cons, hp f h1]
      simp [tableGet, List.find?, h1]
    · rw [List.filter_cons]
      by_cases h2 : p f = true
      · simpa [h2, tableGet, List.find?, h1] using ih
      · rw [eq_false_of_ne_true h2]
        simpa [tableGet, List.find?, h1] using ih

theorem tableGet_removeAll_mem (ftr : List String) (t : List (String × TomlVal))
    (k : String) (h : k ∈ ftr) : tableGet (tableRemoveAll ftr t) k = none := by
  rw [tableRemoveAll_eq_filter]
  refine tableGet_filter_none t k _ ?_
  intro f hf
  simp [hf, h]

theorem tableGet_removeAll_not_mem (ftr : List String) (t : List (String × TomlVal))
    (k : String) (h : k ∉ ftr) :
    tableGet (tableRemoveAll ftr t) k = tableGet t k := by
  rw [tableRemoveAll_eq_filter]
  refine tableGet_filter_of_true t k _ ?_
  intro f hf
  simp [hf, h]

theorem tableRemoveAll_idem (ftr : List String) (t : List (String × TomlVal)) :
    tableRemoveAll ftr (tableRemoveAll ftr t) = tableRemoveAll ftr t := by
  rw [tableRemoveAll_eq_filter, tableRemoveAll_eq_filter, List.filter_filter]
  congr 1
  funext x
  by_cases h : ftr.contains x.1 <;> simp [h]

/-- Once `edit_tablelike_dep` has rewritten a table, running it again either
refuses (the `workspace` check, which can only fire when the target field is
`workspace` itself) or reproduces the same table. -/
theorem edit_tablelike_dep_idem (a : EditArgs) (t t' : List (String × TomlVal))
    (h : edit_tablelike_dep a t = .ok t') :
    edit_tablelike_dep a t' = .error () ∨ edit_tablelike_dep a t' = .ok t' := by
  unfold edit_tablelike_dep at h
  by_cases hw : (tableGet t "workspace").isSome
  · rw [if_pos hw] at h
    exact absurd h (by simp)
  · rw [if_neg hw] at h
    simp only [Except.ok.injEq] at h
    by_cases hw2 : (tableGet t' "workspace").isSome
    · left
      unfold edit_tablelike_dep
      rw [if_pos hw2]
    · right
      unfold edit_tablelike_dep
      rw [if_neg hw2]
      subst h
      by_cases hf : a.field ∈ a.fieldsToRemove
      · have hget : tableGet (tableRemoveAll a.fieldsToRemove
            (tableInsert t a.field (.str a.fieldValue))) a.field = none :=
          tableGet_removeAll_mem _ _ _ hf
        rw [tableInsert_of_get_none _ _ _ hget]
        rw [tableRemoveAll_eq_filter, tableRemoveAll_eq_filter, List.filter_append,
          List.filter_filter]
        have hc : a.fieldsToRemove.contains a.field = true := by
          simpa using hf
        simp [hc, Bool.and_self]
        exact hf
      · have hget : tableGet (tableRemoveAll a.fieldsToRemove
            (tableInsert t a.field (.str a.fieldValue))) a.field =
            some (.str a.fieldValue) := by
          rw [tableGet_removeAll_not_mem _ _ _ hf]
          exact tableGet_insert_self _ _ _
        rw [tableInsert_of_get_eq _ _ _ hget, tableRemoveAll_idem]

theorem tableRemoveAll_of_keys_not_mem (ftr : List String)
    (t : List (String × TomlVal)) (h : ∀ f ∈ t, f.1 ∉ ftr) :
    tableRemoveAll ftr t = t := by
  rw [tableRemoveAll_eq_filter]
  apply List.filter_eq_self.mpr
  intro x hx
  simpa using h x hx

theorem mem_tableInsert (t : List (String × TomlVal)) (k : String) (v : TomlVal)
    (x : String × TomlVal) (h : x ∈ tableInsert t k v) : x ∈ t ∨ x.1 = k := by
  induction t with
  | nil =>
    simp only [tableInsert, List.mem_singleton] at h
    simp [h]
  | cons f rest ih =>
    obtain ⟨k1, v1⟩ := f
    by_cases h1 : k1 = k
    · simp only [tableInsert, if_pos h1, List.mem_cons] at h
      rcases h with rfl | h
      · exact Or.inr rfl
      · exact Or.inl (List.mem_cons_of_mem _ h)
    · simp only [tableInsert, if_neg h1, List.mem_cons] at h
      rcases h with rfl | h
      · exact Or.inl (List.mem_cons_self _ _)
      · rcases ih h with h | h
        · exact Or.inl (List.mem_cons_of_mem _ h)
        · exact Or.inr h

/-- Rerunning `processDepEntry` on a table produced by a successful
`edit_tablelike_dep` either errors or leaves the table as it is. -/
theorem processDepEntry_table_rerun (a : EditArgs) (k : String)
    (t' : List (String × TomlVal))
    (hidem : edit_tablelike_dep a t' = .error () ∨ edit_tablelike_dep a t' = .ok t') :
    processDepEntry a k (.table t') = .error () ∨
      ∃ b, processDepEntry a k (.table t') = .ok (.table t', b) := by
  match hpkg : tableGet t' "package" with
  | some (.nonStr) =>
    left
    simp only [processDepEntry, hpkg]
  | some (.str q) =>
    by_cases hq : a.deps.contains q
    · rcases hidem with herr | hok
      · left
        simp only [processDepEntry, hpkg, herr]
        rw [if_pos hq]
      · right
        refine ⟨true, ?_⟩
        simp only [processDepEntry, hpkg, hok]
        rw [if_pos hq]
    · right
      refine ⟨false, ?_⟩
      simp only [processDepEntry, hpkg]
      rw [if_neg hq]
  | none =>
    by_cases hk : a.deps.contains k
    · rcases hidem with herr | hok
      · left
        simp only [processDepEntry, hpkg, herr]
        rw [if_pos hk]
      · right
        refine ⟨true, ?_⟩
        simp only [processDepEntry, hpkg, hok]
        rw [if_pos hk]
    · right
      refine ⟨false, ?_⟩
      simp only [processDepEntry, hpkg]
      rw [if_neg hk]

/-- One entry of the editor is idempotent on disk: after a successful
rewrite, rerunning on the rewritten entry either errors (and so writes
nothing) or reproduces the entry unchanged.  The hypothesis excludes the
shorthand-promotion leak: with `overwrite_str_value = false` the promoted
inline table keeps its `version` field and its new `field`, which a second
run would remove again were they listed in `fields_to_remove`. -/
theorem processDepEntry_idem (a : EditArgs) (k : String) (e e' : DepEntry) (flag : Bool)
    (hyp : a.overwriteStrValue = true ∨
      ("version" ∉ a.fieldsToRemove ∧ a.field ∉ a.fieldsToRemove))
    (h : processDepEntry a k e = .ok (e', flag)) :
    processDepEntry a k e' = .error () ∨
      ∃ b, processDepEntry a k e' = .ok (e', b) := by
  match e with
  | .other => exact absurd h (by simp [processDepEntry])
  | .table fields =>
    simp only [processDepEntry] at h
    match hpkg : tableGet fields "package" with
    | some (.nonStr) =>
      simp only [hpkg] at h
      exact absurd h (by simp)
    | some (.str p) =>
      simp only [hpkg] at h
      by_cases hp : a.deps.contains p
      · rw [if_pos hp] at h
        match hedit : edit_tablelike_dep a fields with
        | .error _ =>
          simp only [hedit] at h
          exact absurd h (by simp)
        | .ok t' =>
          simp only [hedit, Except.ok.injEq, Prod.mk.injEq] at h
          rw [← h.1]
          exact processDepEntry_table_rerun a k t'
            (edit_tablelike_dep_idem a fields t' hedit)
      · rw [if_neg hp] at h
        simp only [Except.ok.injEq, Prod.mk.injEq] at h
        rw [← h.1]
        refine Or.inr ⟨false, ?_⟩
        simp only [processDepEntry, hpkg]
        rw [if_neg hp]
    | none =>
      simp only [hpkg] at h
      by_cases hk : a.deps.contains k
      · rw [if_pos hk] at h
        match hedit : edit_tablelike_dep a fields with
        | .error _ =>
          simp only [hedit] at h
          exact absurd h (by simp)
        | .ok t' =>
          simp only [hedit, Except.ok.injEq, Prod.mk.injEq] at h
          rw [← h.1]
          exact processDepEntry_table_rerun a k t'
            (edit_tablelike_dep_idem a fields t' hedit)
      · rw [if_neg hk] at h
        simp only [Except.ok.injEq, Prod.mk.injEq] at h
        rw [← h.1]
        refine Or.inr ⟨false, ?_⟩
        simp only [processDepEntry, hpkg]
        rw [if_neg hk]
  | .str s =>
    simp only [processDepEntry] at h
    by_cases hk : a.deps.contains k
    · rw [if_pos hk] at h
      by_cases hov : a.overwriteStrValue = true
      · rw [if_pos hov] at h
        simp only [Except.ok.injEq, Prod.mk.injEq] at h
        rw [← h.1]
        refine Or.inr ⟨true, ?_⟩
        simp only [processDepEntry]
        rw [if_pos hk, if_pos hov]
      · rw [if_neg hov] at h
        simp only [Except.ok.injEq, Prod.mk.injEq] at h
        have hftr : "version" ∉ a.fieldsToRemove ∧ a.field ∉ a.fieldsToRemove := by
          rcases hyp with hyp | hyp
          · exact absurd hyp hov
          · exact hyp
        rw [← h.1]
        -- the promoted inline table
        set P := tableInsert (tableInsert [] "version" (.str s)) a.field
          (.str a.fieldValue) with hP
        have hbase : tableInsert ([] : List (String × TomlVal)) "version" (.str s) =
            [("version", .str s)] := rfl
        have hPfield : tableGet P a.field = some (.str a.fieldValue) :=
          tableGet_insert_self _ _ _
        have hPother : ∀ x : String, x ≠ a.field → x ≠ "version" →
            tableGet P x = none := by
          intro x hx1 hx2
          rw [hP, tableGet_insert_ne _ _ _ _ hx1, hbase]
          simp [tableGet, List.find?, Ne.symm hx2]
        have hPkeys : ∀ f ∈ P, f.1 = "version" ∨ f.1 = a.field := by
          intro f hf
          rcases mem_tableInsert _ _ _ _ hf with hf | hf
          · rw [hbase] at hf
            simp only [List.mem_singleton] at hf
            exact Or.inl (by rw [hf])
          · exact Or.inr hf
        have hremP : tableRemoveAll a.fieldsToRemove P = P := by
          refine tableRemoveAll_of_keys_not_mem _ _ ?_
          intro f hf
          rcases hPkeys f hf with hf1 | hf1
          · rw [hf1]; exact hftr.1
          · rw [hf1]; exact hftr.2
        have heditP : a.field ≠ "workspace" →
            edit_tablelike_dep a P = .ok P := by
          intro hwf
          unfold edit_tablelike_dep
          rw [hPother "workspace" (Ne.symm hwf) (by decide)]
          simp only [Option.isSome_none, Bool.false_eq_true, if_false]
          rw [tableInsert_of_get_eq _ _ _ hPfield, hremP]
        by_cases hwf : a.field = "workspace"
        · -- the second run hits the workspace refusal
          left
          have hPpkg : tableGet P "package" = none := by
            refine hPother "package" ?_ (by decide)
            rw [hwf]; decide
          have herr : edit_tablelike_dep a P = .error () := by
            unfold edit_tablelike_dep
            rw [hwf] at hPfield ⊢
            rw [hPfield]
            rfl
          simp only [processDepEntry, hPpkg, herr]
          rw [if_pos hk]
        · by_cases hpf : a.field = "package"
          · -- the promoted table now has a package alias equal to the value
            have hPpkg : tableGet P "package" = some (.str a.fieldValue) := by
              rw [← hpf]; exact hPfield
            by_cases hv : a.deps.contains a.fieldValue
            · refine Or.inr ⟨true, ?_⟩
              simp only [processDepEntry, hPpkg, heditP hwf]
              rw [if_pos hv]
            · refine Or.inr ⟨false, ?_⟩
              simp only [processDepEntry, hPpkg]
              rw [if_neg hv]
          · have hPpkg : tableGet P "package" = none :=
              hPother "package" (Ne.symm hpf) (by decide)
            refine Or.inr ⟨true, ?_⟩
            simp only [processDepEntry, hPpkg, heditP hwf]
            rw [if_pos hk]
    · rw [if_neg hk] at h
      simp only [Except.ok.injEq, Prod.mk.injEq] at h
      rw [← h.1]
      refine Or.inr ⟨false, ?_⟩
      simp only [processDepEntry]
      rw [if_neg hk]

theorem TargetTables.getK_setK (t : TargetTables) (k : CrateDependencyKey)
    (s : Option (List (String × DepEntry))) : (t.setK k s).getK k = s := by
  cases k <;> rfl

theorem TargetTables.setK_getK_self (t : TargetTables) (k : CrateDependencyKey) :
    t.setK k (t.getK k) = t := by
  cases k <;> rfl

theorem TargetTables.getK_setK_ne (t : TargetTables) (k k' : CrateDependencyKey)
    (s : Option (List (String × DepEntry))) (h : k ≠ k') :
    (t.setK k' s).getK k = t.getK k := by
  cases k <;> cases k' <;> first | rfl | exact absurd rfl h

theorem Manifest.getK_setK_m (m : Manifest) (k : CrateDependencyKey)
    (s : Option (List (String × DepEntry))) : (m.setK k s).getK k = s := by
  cases k <;> rfl

theorem Manifest.setK_getK_self_m (m : Manifest) (k : CrateDependencyKey) :
    m.setK k (m.getK k) = m := by
  cases k <;> rfl

theorem Manifest.getK_setK_ne_m (m : Manifest) (k k' : CrateDependencyKey)
    (s : Option (List (String × DepEntry))) (h : k ≠ k') :
    (m.setK k' s).getK k = m.getK k := by
  cases k <;> cases k' <;> first | rfl | exact absurd rfl h

theorem Manifest.getK_target_update (m : Manifest) (k : CrateDependencyKey)
    (ts : List (String × TargetTables)) :
    ({ m with target := ts } : Manifest).getK k = m.getK k := by
  cases k <;> rfl

theorem Manifest.setK_target (m : Manifest) (k : CrateDependencyKey)
    (s : Option (List (String × DepEntry))) : (m.setK k s).target = m.target := by
  cases k <;> rfl

theorem visitDepTable_idem (a : EditArgs)
    (hyp : a.overwriteStrValue = true ∨
      ("version" ∉ a.fieldsToRemove ∧ a.field ∉ a.fieldsToRemove))
    (t t' : List (String × DepEntry)) (f : Bool)
    (h : visitDepTable a t = .ok (t', f)) :
    visitDepTable a t' = .error () ∨ ∃ b, visitDepTable a t' = .ok (t', b) := by
  induction t generalizing t' f with
  | nil =>
    simp only [visitDepTable, Except.ok.injEq, Prod.mk.injEq] at h
    rw [← h.1]
    exact Or.inr ⟨false, rfl⟩
  | cons fe rest ih =>
    obtain ⟨k, e⟩ := fe
    simp only [visitDepTable] at h
    match hpe : processDepEntry a k e with
    | .error _ =>
      simp only [hpe] at h
      exact absurd h (by simp)
    | .ok (e2, m1) =>
      simp only [hpe] at h
      match hvt : visitDepTable a rest with
      | .error _ =>
        simp only [hvt] at h
        exact absurd h (by simp)
      | .ok (rest2, m2) =>
        simp only [hvt, Except.ok.injEq, Prod.mk.injEq] at h
        obtain ⟨h1, -⟩ := h
        rw [← h1]
        rcases processDepEntry_idem a k e e2 m1 hyp hpe with he | ⟨b1, hb1⟩
        · left
          simp only [visitDepTable, he]
        · rcases ih rest2 m2 hvt with hr | ⟨b2, hb2⟩
          · left
            simp only [visitDepTable, hb1, hr]
          · right
            exact ⟨b1 || b2, by simp only [visitDepTable, hb1, hb2]⟩

theorem SStable_of_editOptTable (a : EditArgs)
    (hyp : a.overwriteStrValue = true ∨
      ("version" ∉ a.fieldsToRemove ∧ a.field ∉ a.fieldsToRemove))
    (s s2 : Option (List (String × DepEntry))) (f : Bool)
    (h : editOptTable a s = .ok (s2, f)) : SStable a s2 := by
  match s with
  | none =>
    simp only [editOptTable, Except.ok.injEq, Prod.mk.injEq] at h
    rw [← h.1]
    exact Or.inr ⟨false, rfl⟩
  | some t =>
    simp only [editOptTable] at h
    match hvt : visitDepTable a t with
    | .error _ =>
      simp only [hvt] at h
      exact absurd h (by simp)
    | .ok (t2, m) =>
      simp only [hvt, Except.ok.injEq, Prod.mk.injEq] at h
      rw [← h.1]
      rcases visitDepTable_idem a hyp t t2 m hvt with he | ⟨b, hb⟩
      · left
        simp only [editOptTable, he]
      · right
        exact ⟨b, by simp only [editOptTable, hb]⟩

theorem editTargetsK_stable_of_ok (a : EditArgs)
    (hyp : a.overwriteStrValue = true ∨
      ("version" ∉ a.fieldsToRemove ∧ a.field ∉ a.fieldsToRemove))
    (k : CrateDependencyKey) (ts ts2 : List (String × TargetTables)) (f : Bool)
    (h : editTargetsK a k ts = .ok (ts2, f)) :
    ∀ p ∈ ts2, SStable a (p.2.getK k) := by
  induction ts generalizing ts2 f with
  | nil =>
    simp only [editTargetsK, Except.ok.injEq, Prod.mk.injEq] at h
    rw [← h.1]
    simp
  | cons nt rest ih =>
    obtain ⟨n, t⟩ := nt
    simp only [editTargetsK] at h
    match hot : editOptTable a (t.getK k) with
    | .error _ =>
      simp only [hot] at h
      exact absurd h (by simp)
    | .ok (sec, m1) =>
      simp only [hot] at h
      match hrest : editTargetsK a k rest with
      | .error _ =>
        simp only [hrest] at h
        exact absurd h (by simp)
      | .ok (rest2, m2) =>
        simp only [hrest, Except.ok.injEq, Prod.mk.injEq] at h
        obtain ⟨h1, -⟩ := h
        rw [← h1]
        intro p hp
        rcases List.mem_cons.mp hp with rfl | hp
        · rw [TargetTables.getK_setK]
          exact SStable_of_editOptTable a hyp _ _ _ hot
        · exact ih rest2 m2 hrest p hp

theorem editTargetsK_rerun_of_stable (a : EditArgs) (k : CrateDependencyKey)
    (ts : List (String × TargetTables))
    (hst : ∀ p ∈ ts, SStable a (p.2.getK k)) :
    editTargetsK a k ts = .error () ∨ ∃ b, editTargetsK a k ts = .ok (ts, b) := by
  induction ts with
  | nil => exact Or.inr ⟨false, rfl⟩
  | cons nt rest ih =>
    obtain ⟨n, t⟩ := nt
    rcases hst (n, t) (List.mem_cons_self _ _) with he | ⟨b1, hb1⟩
    · left
      simp only [editTargetsK, he]
    · rcases ih (fun p hp => hst p (List.mem_cons_of_mem _ hp)) with hr | ⟨b2, hb2⟩
      · left
        simp only [editTargetsK, hb1, hr]
      · right
        refine ⟨b1 || b2, ?_⟩
        simp only [editTargetsK, hb1, hb2, TargetTables.setK_getK_self]

theorem editTargetsK_shape (a : EditArgs) (k : CrateDependencyKey)
    (ts ts2 : List (String × TargetTables)) (f : Bool)
    (h : editTargetsK a k ts = .ok (ts2, f)) (k' : CrateDependencyKey) (hk : k' ≠ k) :
    ts2.map (fun p => (p.1, p.2.getK k')) = ts.map (fun p => (p.1, p.2.getK k')) := by
  induction ts generalizing ts2 f with
  | nil =>
    simp only [editTargetsK, Except.ok.injEq, Prod.mk.injEq] at h
    rw [← h.1]
  | cons nt rest ih =>
    obtain ⟨n, t⟩ := nt
    simp only [editTargetsK] at h
    match hot : editOptTable a (t.getK k) with
    | .error _ =>
      simp only [hot] at h
      exact absurd h (by simp)
    | .ok (sec, m1) =>
      simp only [hot] at h
      match hrest : editTargetsK a k rest with
      | .error _ =>
        simp only [hrest] at h
        exact absurd h (by simp)
      | .ok (rest2, m2) =>
        simp only [hrest, Except.ok.injEq, Prod.mk.injEq] at h
        obtain ⟨h1, -⟩ := h
        rw [← h1]
        simp only [List.map_cons, List.cons.injEq]
        refine ⟨?_, ih rest2 m2 hrest⟩
        rw [TargetTables.getK_setK_ne _ _ _ _ hk]

theorem MStable_of_editKeySections (a : EditArgs)
    (hyp : a.overwriteStrValue = true ∨
      ("version" ∉ a.fieldsToRemove ∧ a.field ∉ a.fieldsToRemove))
    (k : CrateDependencyKey) (m m2 : Manifest) (f : Bool)
    (h : editKeySections a k m = .ok (m2, f)) : MStable a k m2 := by
  simp only [editKeySections] at h
  match hot : editOptTable a (m.getK k) with
  | .error _ =>
    simp only [hot] at h
    exact absurd h (by simp)
  | .ok (sec, f1) =>
    simp only [hot] at h
    match htg : editTargetsK a k (m.setK k sec).target with
    | .error _ =>
      simp only [htg] at h
      exact absurd h (by simp)
    | .ok (tgts, f2) =>
      simp only [htg, Except.ok.injEq, Prod.mk.injEq] at h
      obtain ⟨h1, -⟩ := h
      rw [← h1]
      constructor
      · rw [Manifest.getK_target_update, Manifest.getK_setK_m]
        exact SStable_of_editOptTable a hyp _ _ _ hot
      · intro p hp
        exact editTargetsK_stable_of_ok a hyp k _ _ _ htg p hp

theorem editKeySections_rerun_of_stable (a : EditArgs) (k : CrateDependencyKey)
    (m : Manifest) (hst : MStable a k m) :
    editKeySections a k m = .error () ∨ ∃ b, editKeySections a k m = .ok (m, b) := by
  rcases hst with ⟨htop, htgts⟩
  rcases htop with he | ⟨b1, hb1⟩
  · left
    simp only [editKeySections, he]
  · rcases editTargetsK_rerun_of_stable a k m.target htgts with hr | ⟨b2, hb2⟩
    · left
      simp only [editKeySections, hb1, Manifest.setK_getK_self_m, hr]
    · right
      refine ⟨b1 || b2, ?_⟩
      simp only [editKeySections, hb1, Manifest.setK_getK_self_m, hb2]

theorem MStable_preserved_of_editKeySections (a : EditArgs)
    (k k' : CrateDependencyKey) (hk : k ≠ k') (m m2 : Manifest) (f : Bool)
    (h : editKeySections a k' m = .ok (m2, f)) (hst : MStable a k m) :
    MStable a k m2 := by
  simp only [editKeySections] at h
  match hot : editOptTable a (m.getK k') with
  | .error _ =>
    simp only [hot] at h
    exact absurd h (by simp)
  | .ok (sec, f1) =>
    simp only [hot] at h
    match htg : editTargetsK a k' (m.setK k' sec).target with
    | .error _ =>
      simp only [htg] at h
      exact absurd h (by simp)
    | .ok (tgts, f2) =>
      simp only [htg, Except.ok.injEq, Prod.mk.injEq] at h
      obtain ⟨h1, -⟩ := h
      rw [← h1]
      constructor
      · rw [Manifest.getK_target_update, Manifest.getK_setK_ne_m _ _ _ _ hk]
        exact hst.1
      · have hshape := editTargetsK_shape a k' _ _ _ htg k hk
        rw [Manifest.setK_target] at hshape
        intro p hp
        have hmem : (p.1, p.2.getK k) ∈ tgts.map (fun q => (q.1, q.2.getK k)) :=
          List.mem_map_of_mem _ hp
        rw [hshape] at hmem
        rcases List.mem_map.mp hmem with ⟨q, hq, hqe⟩
        have : p.2.getK k = q.2.getK k := by
          have := congrArg Prod.snd hqe
          simpa using this.symm
        rw [this]
        exact hst.2 q hq

/-- After a successful editor run, a second run on the written manifest
either errors (writing nothing) or returns the manifest unchanged. -/
theorem write_dependency_field_value_idem (a : EditArgs) (m m' : Manifest) (f : Bool)
    (hyp : a.overwriteStrValue = true ∨
      ("version" ∉ a.fieldsToRemove ∧ a.field ∉ a.fieldsToRemove))
    (h : write_dependency_field_value a m = .ok (m', f)) :
    write_dependency_field_value a m' = .error () ∨
      ∃ b, write_dependency_field_value a m' = .ok (m', b) := by
  simp only [write_dependency_field_value] at h
  match h1 : editKeySections a .buildDependencies m with
  | .error _ =>
    simp only [h1] at h
    exact absurd h (by simp)
  | .ok (m1, f1) =>
    simp only [h1] at h
    match h2 : editKeySections a .dependencies m1 with
    | .error _ =>
      simp only [h2] at h
      exact absurd h (by simp)
    | .ok (m2, f2) =>
      simp only [h2] at h
      match h3 : editKeySections a .devDependencies m2 with
      | .error _ =>
        simp only [h3] at h
        exact absurd h (by simp)
      | .ok (m3, f3) =>
        simp only [h3, Except.ok.injEq, Prod.mk.injEq] at h
        obtain ⟨hm, -⟩ := h
        rw [← hm]
        have hsb : MStable a .buildDependencies m3 :=
          MStable_preserved_of_editKeySections a _ _ (by simp) _ _ _ h3
            (MStable_preserved_of_editKeySections a _ _ (by simp) _ _ _ h2
              (MStable_of_editKeySections a hyp _ _ _ _ h1))
        have hsd : MStable a .dependencies m3 :=
          MStable_preserved_of_editKeySections a _ _ (by simp) _ _ _ h3
            (MStable_of_editKeySections a hyp _ _ _ _ h2)
        have hsv : MStable a .devDependencies m3 :=
          MStable_of_editKeySections a hyp _ _ _ _ h3
        rcases editKeySections_rerun_of_stable a _ _ hsb with he1 | ⟨b1, hb1⟩
        · left
          simp only [write_dependency_field_value, he1]
        · rcases editKeySections_rerun_of_stable a _ _ hsd with he2 | ⟨b2, hb2⟩
          · left
            simp only [write_dependency_field_value, hb1, he2]
          · rcases editKeySections_rerun_of_stable a _ _ hsv with he3 | ⟨b3, hb3⟩
            · left
              simp only [write_dependency_field_value, hb1, hb2, he3]
            · right
              refine ⟨b1 || b2 || b3, ?_⟩
              simp only [write_dependency_field_value, hb1, hb2, hb3]

/-- C9, amended, witness at the name `SUBPUB` (bytes 83,85,66,80,85,66):
the path is `su/bp/SUBPUB`. -/
theorem C9_amended_witness :
    1 ≤ ([83, 85, 66, 80, 85, 66] : List Nat).length ∧
    indexMetadataPath [83, 85, 66, 80, 85, 66] =
      (if ([83, 85, 66, 80, 85, 66] : List Nat).length = 1 then
         [49, 47] ++ [83, 85, 66, 80, 85, 66]
       else if ([83, 85, 66, 80, 85, 66] : List Nat).length = 2 then
         [50, 47] ++ [83, 85, 66, 80, 85, 66]
       else if ([83, 85, 66, 80, 85, 66] : List Nat).length = 3 then
         [51, 47] ++ (([83, 85, 66, 80, 85, 66] : List Nat).take 1).map asciiLowerByte ++
           [47] ++ [83, 85, 66, 80, 85, 66]
       else
         (([83, 85, 66, 80, 85, 66] : List Nat).take 2).map asciiLowerByte ++ [47] ++
           ((([83, 85, 66, 80, 85, 66] : List Nat).drop 2).take 2).map asciiLowerByte ++
           [47] ++ [83, 85, 66, 80, 85, 66]) :=
  ⟨by decide, C9_amended [83, 85, 66, 80, 85, 66] (by decide)⟩

/-- C5, counterexample.  Manifest `[dependencies] foo = "1.0"`, arguments
`deps = ["foo"]`, `drop_fields = ["version"]`, `field = "path"`,
`value = "x"`, `overwrite_shorthand = false`.  The first run promotes the
shorthand to `{ version = "1.0", path = "x" }` — the shorthand branch never
applies `fields_to_remove` — and the second run, now in the table branch,
removes `version`, yielding a different document. -/
theorem C5_counterexample :
    write_dependency_field_value_on_disk ⟨["foo"], ["version"], "path", "x", false⟩
        ⟨none, some [("foo", .str "1.0")], none, []⟩ =
      ⟨none, some [("foo", .table [("version", .str "1.0"), ("path", .str "x")])],
        none, []⟩ ∧
    write_dependency_field_value_on_disk ⟨["foo"], ["version"], "path", "x", false⟩
        (write_dependency_field_value_on_disk ⟨["foo"], ["version"], "path", "x", false⟩
          ⟨none, some [("foo", .str "1.0")], none, []⟩) =
      ⟨none, some [("foo", .table [("path", .str "x")])], none, []⟩ ∧
    write_dependency_field_value_on_disk ⟨["foo"], ["version"], "path", "x", false⟩
        (write_dependency_field_value_on_disk ⟨["foo"], ["version"], "path", "x", false⟩
          ⟨none, some [("foo", .str "1.0")], none, []⟩) ≠
      write_dependency_field_value_on_disk ⟨["foo"], ["version"], "path", "x", false⟩
        ⟨none, some [("foo", .str "1.0")], none, []⟩ := by
  refine ⟨by decide, by decide, by decide⟩

/-- C5, amended.  For every manifest document and argument tuple in which
either shorthand entries are overwritten whole (`overwrite_shorthand =
true`) or `fields_to_remove` contains neither `version` nor the target
field, applying the dependency-field editor twice yields exactly the same
on-disk document as applying it once. -/
theorem C5_amended (a : EditArgs) (m : Manifest)
    (hyp : a.overwriteStrValue = true ∨
      ("version" ∉ a.fieldsToRemove ∧ a.field ∉ a.fieldsToRemove)) :
    write_dependency_field_value_on_disk a (write_dependency_field_value_on_disk a m) =
      write_dependency_field_value_on_disk a m := by
  match h : write_dependency_field_value a m with
  | .error _ =>
    have hd : write_dependency_field_value_on_disk a m = m := by
      simp [write_dependency_field_value_on_disk, h]
    rw [hd, hd]
  | .ok (m', false) =>
    have hd : write_dependency_field_value_on_disk a m = m := by
      simp [write_dependency_field_value_on_disk, h]
    rw [hd, hd]
  | .ok (m', true) =>
    have hd : write_dependency_field_value_on_disk a m = m' := by
      simp [write_dependency_field_value_on_disk, h]
    rw [hd]
    rcases write_dependency_field_value_idem a m m' true hyp h with he | ⟨b, hb⟩
    · simp [write_dependency_field_value_on_disk, he]
    · cases b
      · simp [write_dependency_field_value_on_disk, hb]
      · simp [write_dependency_field_value_on_disk, hb]

/-- C5, amended, witness: rerunning with `overwrite_shorthand = true` on
`[dependencies] foo = "1.0"` is idempotent. -/
theorem C5_amended_witness :
    write_dependency_field_value_on_disk ⟨["foo"], ["path"], "version", "2.0", true⟩
        (write_dependency_field_value_on_disk ⟨["foo"], ["path"], "version", "2.0", true⟩
          ⟨none, some [("foo", .str "1.0")], none, []⟩) =
      write_dependency_field_value_on_disk ⟨["foo"], ["path"], "version", "2.0", true⟩
        ⟨none, some [("foo", .str "1.0")], none, []⟩ :=
  C5_amended ⟨["foo"], ["path"], "version", "2.0", true⟩
    ⟨none, some [("foo", .str "1.0")], none, []⟩ (Or.inl rfl)

theorem processDepEntry_no_match (a : EditArgs) (k : String) (e : DepEntry)
    (h : entryMatches a.deps k e = false) :
    processDepEntry a k e = .error () ∨ processDepEntry a k e = .ok (e, false) := by
  match e with
  | .other => exact Or.inl rfl
  | .str s =>
    simp only [entryMatches] at h
    right
    simp only [processDepEntry]
    rw [if_neg (by rw [h]; exact Bool.false_ne_true)]
  | .table fields =>
    match hpkg : tableGet fields "package" with
    | some .nonStr =>
      left
      simp only [processDepEntry, hpkg]
    | some (.str p) =>
      simp only [entryMatches, hpkg] at h
      right
      simp only [processDepEntry, hpkg]
      rw [if_neg (by rw [h]; exact Bool.false_ne_true)]
    | none =>
      simp only [entryMatches, hpkg] at h
      right
      simp only [processDepEntry, hpkg]
      rw [if_neg (by rw [h]; exact Bool.false_ne_true)]

theorem visitDepTable_no_match (a : EditArgs) (t : List (String × DepEntry))
    (h : ∀ f ∈ t, entryMatches a.deps f.1 f.2 = false) :
    visitDepTable a t = .error () ∨ visitDepTable a t = .ok (t, false) := by
  induction t with
  | nil => exact Or.inr rfl
  | cons fe rest ih =>
    obtain ⟨k, e⟩ := fe
    rcases processDepEntry_no_match a k e (h (k, e) (List.mem_cons_self _ _)) with he | hok
    · left
      simp only [visitDepTable, he]
    · rcases ih (fun f hf => h f (List.mem_cons_of_mem _ hf)) with hr | hrok
      · left
        simp only [visitDepTable, hok, hr]
      · right
        simp only [visitDepTable, hok, hrok, Bool.or_self]

theorem editOptTable_no_match (a : EditArgs) (sec : Option (List (String × DepEntry)))
    (h : sectionHasMatch a.deps sec = false) :
    editOptTable a sec = .error () ∨ editOptTable a sec = .ok (sec, false) := by
  match sec with
  | none => exact Or.inr rfl
  | some t =>
    simp only [sectionHasMatch, List.any_eq_false] at h
    rcases visitDepTable_no_match a t (fun f hf => by
      have := h f hf
      simpa using this) with he | hok
    · left
      simp only [editOptTable, he]
    · right
      simp only [editOptTable, hok]

theorem editTargetsK_no_match (a : EditArgs) (k : CrateDependencyKey)
    (ts : List (String × TargetTables))
    (h : ∀ p ∈ ts, sectionHasMatch a.deps (p.2.getK k) = false) :
    editTargetsK a k ts = .error () ∨ editTargetsK a k ts = .ok (ts, false) := by
  induction ts with
  | nil => exact Or.inr rfl
  | cons nt rest ih =>
    obtain ⟨n, t⟩ := nt
    rcases editOptTable_no_match a (t.getK k) (h (n, t) (List.mem_cons_self _ _)) with
      he | hok
    · left
      simp only [editTargetsK, he]
    · rcases ih (fun p hp => h p (List.mem_cons_of_mem _ hp)) with hr | hrok
      · left
        simp only [editTargetsK, hok, hr]
      · right
        simp only [editTargetsK, hok, hrok, TargetTables.setK_getK_self, Bool.or_self]

theorem editKeySections_no_match (a : EditArgs) (k : CrateDependencyKey) (m : Manifest)
    (h1 : sectionHasMatch a.deps (m.getK k) = false)
    (h2 : ∀ p ∈ m.target, sectionHasMatch a.deps (p.2.getK k) = false) :
    editKeySections a k m = .error () ∨ editKeySections a k m = .ok (m, false) := by
  rcases editOptTable_no_match a (m.getK k) h1 with he | hok
  · left
    simp only [editKeySections, he]
  · rcases editTargetsK_no_match a k m.target h2 with hr | hrok
    · left
      simp only [editKeySections, hok, Manifest.setK_getK_self_m, hr]
    · right
      simp only [editKeySections, hok, Manifest.setK_getK_self_m, hrok, Bool.or_self]

/-- The per-target no-match components for every kind, extracted from the
manifest-level no-match hypothesis. -/
theorem manifestNoMatch_parts (deps : List String) (m : Manifest)
    (h : manifestHasMatch deps m = false) :
    sectionHasMatch deps m.buildDependencies = false ∧
    sectionHasMatch deps m.dependencies = false ∧
    sectionHasMatch deps m.devDependencies = false ∧
    ∀ p ∈ m.target,
      sectionHasMatch deps p.2.buildDependencies = false ∧
      sectionHasMatch deps p.2.dependencies = false ∧
      sectionHasMatch deps p.2.devDependencies = false := by
  simp only [manifestHasMatch, Bool.or_eq_false_iff, List.any_eq_false] at h
  refine ⟨h.1.1.1, h.1.1.2, h.1.2, ?_⟩
  intro p hp
  have h3 := h.2 p hp
  simp only [Bool.or_eq_true, not_or, Bool.not_eq_true] at h3
  exact ⟨h3.1.1, h3.1.2, h3.2⟩

/-- C10.  If no dependency entry in any dependency section of a manifest
matches the given dependency names, the dependency-field editor does not
write the manifest file at all (the `modified` flag stays false and every
error path returns before `write_toml`), so the file's bytes, comments and
formatting included, are left exactly unchanged. -/
theorem C10_no_match_no_write (a : EditArgs) (m : Manifest)
    (h : manifestHasMatch a.deps m = false) :
    write_dependency_field_value_wrote a m = false := by
  obtain ⟨hb, hd, hv, htg⟩ := manifestNoMatch_parts a.deps m h
  have hkb : sectionHasMatch a.deps (m.getK .buildDependencies) = false := hb
  have hkd : sectionHasMatch a.deps (m.getK .dependencies) = false := hd
  have hkv : sectionHasMatch a.deps (m.getK .devDependencies) = false := hv
  have htb : ∀ p ∈ m.target,
      sectionHasMatch a.deps (p.2.getK .buildDependencies) = false :=
    fun p hp => (htg p hp).1
  have htd : ∀ p ∈ m.target, sectionHasMatch a.deps (p.2.getK .dependencies) = false :=
    fun p hp => (htg p hp).2.1
  have htv : ∀ p ∈ m.target,
      sectionHasMatch a.deps (p.2.getK .devDependencies) = false :=
    fun p hp => (htg p hp).2.2
  unfold write_dependency_field_value_wrote
  rcases editKeySections_no_match a .buildDependencies m hkb htb with he1 | hok1
  · simp only [write_dependency_field_value, he1]
  · rcases editKeySections_no_match a .dependencies m hkd htd with he2 | hok2
    · simp only [write_dependency_field_value, hok1, he2]
    · rcases editKeySections_no_match a .devDependencies m hkv htv with he3 | hok3
      · simp only [write_dependency_field_value, hok1, hok2, he3]
      · simp only [write_dependency_field_value, hok1, hok2, hok3, Bool.or_self]

/-- C10, witness: a manifest whose only dependency entry is `foo` is not
written when the editor is asked about `bar`. -/
theorem C10_no_match_no_write_witness :
    write_dependency_field_value_wrote ⟨["bar"], ["path"], "version", "2.0", true⟩
      ⟨none, some [("foo", .str "1.0")], none, []⟩ = false :=
  C10_no_match_no_write ⟨["bar"], ["path"], "version", "2.0", true⟩
    ⟨none, some [("foo", .str "1.0")], none, []⟩ (by decide)

theorem orderStep_append (acc : List OrderedCrate) (kd : String × List String) :
    ∃ t, orderStep acc kd = acc ++ t := by
  unfold orderStep
  split_ifs with h1 h2
  · exact ⟨[], (List.append_nil acc).symm⟩
  · exact ⟨_, rfl⟩
  · exact ⟨[], (List.append_nil acc).symm⟩

theorem foldl_orderStep_append (l : List (String × List String))
    (acc : List OrderedCrate) : ∃ t, l.foldl orderStep acc = acc ++ t := by
  induction l generalizing acc with
  | nil => exact ⟨[], by simp⟩
  | cons kd rest ih =>
    obtain ⟨t1, h1⟩ := orderStep_append acc kd
    obtain ⟨t2, h2⟩ := ih (orderStep acc kd)
    exact ⟨t1 ++ t2, by rw [List.foldl_cons, h2, h1, List.append_assoc]⟩

theorem orderPass_append (ws : DepsWorkspace) (acc : List OrderedCrate) :
    ∃ t, orderPass ws acc = acc ++ t :=
  foldl_orderStep_append ws acc

theorem orderPass_fix_of_length (ws : DepsWorkspace) (acc : List OrderedCrate)
    (h : (orderPass ws acc).length = acc.length) : orderPass ws acc = acc := by
  obtain ⟨t, ht⟩ := orderPass_append ws acc
  rw [ht] at h ⊢
  rw [List.length_append] at h
  have hz : t.length = 0 := by omega
  rw [List.eq_nil_of_length_eq_zero hz, List.append_nil]

theorem foldl_orderStep_fix_steps (l : List (String × List String)) :
    ∀ acc : List OrderedCrate, l.foldl orderStep acc = acc →
    ∀ kd ∈ l, orderStep acc kd = acc := by
  induction l with
  | nil => exact fun acc h kd hkd => absurd hkd (by simp)
  | cons kd0 rest ih =>
    intro acc h
    rw [List.foldl_cons] at h
    obtain ⟨t1, h1⟩ := orderStep_append acc kd0
    obtain ⟨t2, h2⟩ := foldl_orderStep_append rest (orderStep acc kd0)
    rw [h2, h1, List.append_assoc] at h
    have hlen := congrArg List.length h
    rw [List.length_append, List.length_append] at hlen
    have ht1 : t1 = [] := List.eq_nil_of_length_eq_zero (by omega)
    have ht2 : t2 = [] := List.eq_nil_of_length_eq_zero (by omega)
    have hstep : orderStep acc kd0 = acc := by rw [h1, ht1, List.append_nil]
    have hrest : rest.foldl orderStep acc = acc := by
      have := h2
      rw [hstep, ht2, List.append_nil] at this
      exact this
    intro kd hkd
    rcases List.mem_cons.mp hkd with rfl | hkd
    · exact hstep
    · exact ih acc hrest kd hkd

theorem orderPass_fix_steps (ws : DepsWorkspace) (acc : List OrderedCrate)
    (hfix : orderPass ws acc = acc) : ∀ kd ∈ ws, orderStep acc kd = acc :=
  foldl_orderStep_fix_steps ws acc hfix

theorem orderStep_names_nodup (acc : List OrderedCrate) (kd : String × List String)
    (h : (namesOf acc).Nodup) : (namesOf (orderStep acc kd)).Nodup := by
  unfold orderStep
  split_ifs with h1 h2
  · exact h
  · rw [namesOf, List.map_append]
    simp only [List.map_cons, List.map_nil]
    rw [List.nodup_append]
    refine ⟨h, List.nodup_singleton _, ?_⟩
    intro n hn hn2
    simp only [List.mem_singleton] at hn2
    subst hn2
    rcases List.mem_map.mp hn with ⟨oc, hoc, hoce⟩
    exact h1 (List.any_eq_true.mpr ⟨oc, hoc, by simp [hoce]⟩)
  · exact h

theorem orderStep_names_subset (acc : List OrderedCrate) (kd : String × List String) :
    ∀ n ∈ namesOf (orderStep acc kd), n ∈ namesOf acc ∨ n = kd.1 := by
  unfold orderStep
  split_ifs with h1 h2
  · exact fun n hn => Or.inl hn
  · intro n hn
    rw [namesOf, List.map_append] at hn
    rcases List.mem_append.mp hn with hn | hn
    · exact Or.inl hn
    · simp only [List.map_cons, List.map_nil, List.mem_singleton] at hn
      exact Or.inr hn
  · exact fun n hn => Or.inl hn

theorem foldl_orderStep_names (l : List (String × List String)) :
    ∀ acc : List OrderedCrate, (namesOf acc).Nodup →
    (namesOf (l.foldl orderStep acc)).Nodup ∧
    ∀ n ∈ namesOf (l.foldl orderStep acc), n ∈ namesOf acc ∨ n ∈ l.map Prod.fst := by
  induction l with
  | nil => exact fun acc h => ⟨h, fun n hn => Or.inl hn⟩
  | cons kd rest ih =>
    intro acc h
    rw [List.foldl_cons]
    obtain ⟨ihnd, ihsub⟩ := ih (orderStep acc kd) (orderStep_names_nodup acc kd h)
    refine ⟨ihnd, ?_⟩
    intro n hn
    rcases ihsub n hn with hn2 | hn2
    · rcases orderStep_names_subset acc kd n hn2 with hn3 | hn3
      · exact Or.inl hn3
      · exact Or.inr (by simp [hn3])
    · exact Or.inr (by simp [hn2])

theorem orderLoop_fixpoint (ws : DepsWorkspace) :
    ∀ (fuel : Nat) (acc : List OrderedCrate), (namesOf acc).Nodup →
    (∀ n ∈ namesOf acc, n ∈ ws.map Prod.fst) → (ws.map Prod.fst).Nodup →
    ws.length < fuel + acc.length →
    orderPass ws (orderLoop ws fuel acc) = orderLoop ws fuel acc := by
  intro fuel
  induction fuel with
  | zero =>
    intro acc hnd hsub hkeys hlt
    have hle : acc.length ≤ ws.length := by
      have h1 : (namesOf acc).length ≤ (ws.map Prod.fst).length :=
        (List.subperm_of_subset hnd hsub).length_le
      rw [namesOf, List.length_map, List.length_map] at h1
      exact h1
    omega
  | succ fuel ih =>
    intro acc hnd hsub hkeys hlt
    show orderPass ws (orderLoop ws (fuel + 1) acc) = orderLoop ws (fuel + 1) acc
    unfold orderLoop
    by_cases hstop : (orderPass ws acc).length = acc.length
    · rw [if_pos hstop]
      exact orderPass_fix_of_length ws acc hstop
    · rw [if_neg hstop]
      obtain ⟨hnd2, hsub2⟩ := foldl_orderStep_names ws acc hnd
      refine ih (orderPass ws acc) hnd2 ?_ hkeys ?_
      · intro n hn
        rcases hsub2 n hn with hn2 | hn2
        · exact hsub n hn2
        · exact hn2
      · obtain ⟨t, ht⟩ := orderPass_append ws acc
        have hlen := congrArg List.length ht
        rw [List.length_append] at hlen
        have : t.length ≠ 0 := by
          intro hz
          exact hstop (by omega)
        omega

theorem contains_eq_true_of_mem {l : List String} {a : String} (h : a ∈ l) :
    l.contains a = true :=
  List.elem_iff.mpr h

theorem contains_eq_false_of_not_mem {l : List String} {a : String} (h : a ∉ l) :
    l.contains a = false := by
  match hb : l.contains a with
  | true => exact absurd (List.elem_iff.mp hb) h
  | false => rfl

theorem rankOf_cons (oc : OrderedCrate) (rest : List OrderedCrate) (d : String) :
    rankOf (oc :: rest) d = if oc.name = d then oc.rank else rankOf rest d := by
  unfold rankOf
  by_cases h : oc.name = d
  · rw [List.find?_cons_of_pos _ (by simp [h]), if_pos h]
  · rw [List.find?_cons_of_neg _ (by simp [h]), if_neg h]

theorem rankOf_eq_zero_of_not_mem (acc : List OrderedCrate) (n : String)
    (h : n ∉ namesOf acc) : rankOf acc n = 0 := by
  unfold rankOf
  match hf : acc.find? (fun oc => oc.name = n) with
  | some oc =>
    exfalso
    have h1 : oc ∈ acc := List.mem_of_find?_eq_some hf
    have h2 := List.find?_some hf
    simp only [decide_eq_true_eq] at h2
    exact h (List.mem_map.mpr ⟨oc, h1, h2⟩)
  | none => rw [hf]

theorem rankOf_append_of_mem (acc t : List OrderedCrate) (n : String)
    (h : n ∈ namesOf acc) : rankOf (acc ++ t) n = rankOf acc n := by
  unfold rankOf
  rw [List.find?_append]
  have hsome : (acc.find? (fun oc => oc.name = n)).isSome := by
    rw [List.find?_isSome]
    rcases List.mem_map.mp h with ⟨oc, hoc, rfl⟩
    exact ⟨oc, hoc, by simp⟩
  match hf : acc.find? (fun oc => oc.name = n) with
  | some oc => rw [hf]; rfl
  | none => rw [hf] at hsome; simp at hsome

theorem foldl_add_rank (l : List OrderedCrate) (init : Nat) :
    l.foldl (fun r oc => r + oc.rank) init = init + (l.map (fun oc => oc.rank)).sum := by
  induction l generalizing init with
  | nil => simp
  | cons oc rest ih =>
    rw [List.foldl_cons, ih, List.map_cons, List.sum_cons]
    omega

theorem sum_rankOf_cons (deps : List String) (oc : OrderedCrate)
    (rest : List OrderedCrate) (hnd : deps.Nodup) (hoc : oc.name ∉ namesOf rest) :
    (deps.map (rankOf (oc :: rest))).sum =
      (if deps.contains oc.name then oc.rank else 0) + (deps.map (rankOf rest)).sum := by
  induction deps with
  | nil => simp
  | cons d ds ih =>
    have hnd2 : ds.Nodup := hnd.of_cons
    have hd_notin : d ∉ ds := (List.nodup_cons.mp hnd).1
    simp only [List.map_cons, List.sum_cons]
    rw [rankOf_cons, ih hnd2]
    by_cases h : oc.name = d
    · rw [if_pos h]
      have hc1 : (d :: ds).contains oc.name = true :=
        contains_eq_true_of_mem (by rw [h]; exact List.mem_cons_self _ _)
      have hc2 : ds.contains oc.name = false :=
        contains_eq_false_of_not_mem (by rw [h]; exact hd_notin)
      have hz : rankOf rest d = 0 := by
        rw [← h]
        exact rankOf_eq_zero_of_not_mem rest oc.name hoc
      rw [if_pos hc1, if_neg (by rw [hc2]; exact Bool.false_ne_true), hz]
    · rw [if_neg h]
      have hc : (d :: ds).contains oc.name = ds.contains oc.name := by
        by_cases hm : oc.name ∈ ds
        · rw [contains_eq_true_of_mem (List.mem_cons_of_mem _ hm),
            contains_eq_true_of_mem hm]
        · have h1 : oc.name ∉ (d :: ds) := by
            rw [List.mem_cons]
            rintro (he | he)
            · exact h he
            · exact hm he
          rw [contains_eq_false_of_not_mem h1, contains_eq_false_of_not_mem hm]
      rw [hc]
      by_cases hds : ds.contains oc.name = true
      · rw [if_pos hds]
        omega
      · rw [if_neg hds]
        omega

theorem sum_filter_ranks (acc : List OrderedCrate) (deps : List String)
    (hacc : (namesOf acc).Nodup) (hdeps : deps.Nodup) :
    ((acc.filter (fun oc => deps.contains oc.name)).map (fun oc => oc.rank)).sum =
      (deps.map (rankOf acc)).sum := by
  induction acc with
  | nil =>
    simp only [List.filter_nil, List.map_nil, List.sum_nil]
    refine (List.sum_eq_zero ?_).symm
    intro x hx
    rcases List.mem_map.mp hx with ⟨d, hd, rfl⟩
    exact (rankOf_eq_zero_of_not_mem [] d (by simp [namesOf]))
  | cons oc rest ih =>
    have hxn : oc.name ∉ namesOf rest := by
      have := hacc
      rw [namesOf, List.map_cons, List.nodup_cons] at this
      exact this.1
    have hnd2 : (namesOf rest).Nodup := by
      have := hacc
      rw [namesOf, List.map_cons, List.nodup_cons] at this
      exact this.2
    rw [List.filter_cons, sum_rankOf_cons deps oc rest hdeps hxn]
    by_cases hc : deps.contains oc.name = true
    · rw [if_pos (by simpa using hc), if_pos hc]
      simp only [List.map_cons, List.sum_cons]
      rw [ih hnd2]
    · rw [if_neg (by simpa using hc), if_neg hc]
      rw [ih hnd2]
      omega

theorem filter_names_perm (acc : List OrderedCrate) (deps : List String)
    (hacc : (namesOf acc).Nodup) (hdeps : deps.Nodup)
    (hsub : ∀ d ∈ deps, d ∈ namesOf acc) :
    ((acc.filter (fun oc => deps.contains oc.name)).map (fun oc => oc.name)).Perm
      deps := by
  have hsubl : List.Sublist (acc.filter (fun oc => deps.contains oc.name)) acc :=
    List.filter_sublist _
  have hFnodup :
      ((acc.filter (fun oc => deps.contains oc.name)).map (fun oc => oc.name)).Nodup :=
    List.Nodup.sublist (hsubl.map _) hacc
  have hFsub : ∀ n ∈ (acc.filter (fun oc => deps.contains oc.name)).map
      (fun oc => oc.name), n ∈ deps := by
    intro n hn
    rcases List.mem_map.mp hn with ⟨oc, hoc, rfl⟩
    have hp := List.of_mem_filter hoc
    exact List.elem_iff.mp (by simpa using hp)
  have h1 := List.subperm_of_subset hFnodup hFsub
  have h2 : List.Subperm deps ((acc.filter (fun oc => deps.contains oc.name)).map
      (fun oc => oc.name)) := by
    refine List.subperm_of_subset hdeps ?_
    intro d hd
    rcases List.mem_map.mp (hsub d hd) with ⟨oc, hoc, rfl⟩
    refine List.mem_map.mpr ⟨oc, ?_, rfl⟩
    refine List.mem_filter.mpr ⟨hoc, ?_⟩
    show deps.contains oc.name = true
    exact List.elem_iff.mpr hd
  exact h1.antisymm h2

theorem filter_length_eq_of_subset (acc : List OrderedCrate) (deps : List String)
    (hacc : (namesOf acc).Nodup) (hdeps : deps.Nodup)
    (hsub : ∀ d ∈ deps, d ∈ namesOf acc) :
    (acc.filter (fun oc => deps.contains oc.name)).length = deps.length := by
  have := (filter_names_perm acc deps hacc hdeps hsub).length_eq
  rwa [List.length_map] at this

theorem subset_of_filter_length_eq (acc : List OrderedCrate) (deps : List String)
    (hacc : (namesOf acc).Nodup) (hdeps : deps.Nodup)
    (hlen : (acc.filter (fun oc => deps.contains oc.name)).length = deps.length) :
    ∀ d ∈ deps, d ∈ namesOf acc := by
  have hsubl : List.Sublist (acc.filter (fun oc => deps.contains oc.name)) acc :=
    List.filter_sublist _
  have hFnodup :
      ((acc.filter (fun oc => deps.contains oc.name)).map (fun oc => oc.name)).Nodup :=
    List.Nodup.sublist (hsubl.map _) hacc
  have hFsub : ∀ n ∈ (acc.filter (fun oc => deps.contains oc.name)).map
      (fun oc => oc.name), n ∈ deps := by
    intro n hn
    rcases List.mem_map.mp hn with ⟨oc, hoc, rfl⟩
    have hp := List.of_mem_filter hoc
    exact List.elem_iff.mp (by simpa using hp)
  have h1 := List.subperm_of_subset hFnodup hFsub
  have hperm := h1.perm_of_length_le (by rw [List.length_map]; omega)
  intro d hd
  have : d ∈ (acc.filter (fun oc => deps.contains oc.name)).map (fun oc => oc.name) :=
    hperm.mem_iff.mpr hd
  rcases List.mem_map.mp this with ⟨oc, hoc, rfl⟩
  exact List.mem_map.mpr ⟨oc, List.mem_of_mem_filter hoc, rfl⟩

theorem lookupDeps_of_mem_nodup (ws : DepsWorkspace) (kd : String × List String)
    (hkd : kd ∈ ws) (hkeys : (ws.map Prod.fst).Nodup) :
    lookupDeps ws kd.1 = some kd.2 := by
  induction ws with
  | nil => simp at hkd
  | cons kd0 rest ih =>
    rw [List.map_cons, List.nodup_cons] at hkeys
    rcases List.mem_cons.mp hkd with rfl | hkd2
    · unfold lookupDeps
      rw [List.find?_cons_of_pos _ (by simp)]
      rfl
    · have hne : kd0.1 ≠ kd.1 := by
        intro he
        exact hkeys.1 (he ▸ List.mem_map.mpr ⟨kd, hkd2, rfl⟩)
      unfold lookupDeps
      rw [List.find?_cons_of_neg _ (by simp [hne])]
      exact ih hkd2 hkeys.2

theorem mem_namesOf_take (acc : List OrderedCrate) (i : Nat) (d : String)
    (h : d ∈ namesOf (acc.take i)) : d ∈ namesOf acc := by
  rcases List.mem_map.mp h with ⟨oc, hoc, rfl⟩
  exact List.mem_map.mpr ⟨oc, List.mem_of_mem_take hoc, rfl⟩

theorem orderStep_WF (ws : DepsWorkspace) (kd : String × List String)
    (hkd : kd ∈ ws) (hkeys : (ws.map Prod.fst).Nodup) (hdeps : kd.2.Nodup)
    (acc : List OrderedCrate) (hWF : WFAcc ws acc) : WFAcc ws (orderStep acc kd) := by
  obtain ⟨hnd, hinv⟩ := hWF
  have hstep := orderStep_names_nodup acc kd hnd
  unfold orderStep at hstep ⊢
  split_ifs with h1 h2
  · exact ⟨hnd, hinv⟩
  · rw [if_neg h1, if_pos h2] at hstep
    refine ⟨hstep, ?_⟩
    have hsubdeps : ∀ d ∈ kd.2, d ∈ namesOf acc :=
      subset_of_filter_length_eq acc kd.2 hnd hdeps h2
    intro i hi
    rw [List.length_append, List.length_singleton] at hi
    by_cases hilt : i < acc.length
    · obtain ⟨deps, hl, hdsub, hrank⟩ := hinv i hilt
      refine ⟨deps, ?_, ?_, ?_⟩
      · rw [List.getElem_append_left hilt]
        exact hl
      · intro d hd
        rw [List.take_append_of_le_length (le_of_lt hilt)]
        exact hdsub d hd
      · rw [List.getElem_append_left hilt]
        rw [hrank]
        congr 1
        refine congrArg List.sum ?_
        refine List.map_congr_left ?_
        intro d hd
        exact (rankOf_append_of_mem acc _ d
          (mem_namesOf_take acc i d (hdsub d hd))).symm
    · have hieq : i = acc.length := by omega
      subst hieq
      refine ⟨kd.2, ?_, ?_, ?_⟩
      · rw [List.getElem_append_right (le_refl _)]
        simp only [Nat.sub_self, List.getElem_singleton]
        exact lookupDeps_of_mem_nodup ws kd hkd hkeys
      · intro d hd
        rw [List.take_append_of_le_length (le_refl _), List.take_length]
        exact hsubdeps d hd
      · rw [List.getElem_append_right (le_refl _)]
        simp only [Nat.sub_self, List.getElem_singleton]
        rw [foldl_add_rank, sum_filter_ranks acc kd.2 hnd hdeps]
        congr 1
        refine congrArg List.sum ?_
        refine List.map_congr_left ?_
        intro d hd
        exact (rankOf_append_of_mem acc _ d (hsubdeps d hd)).symm
  · exact ⟨hnd, hinv⟩

theorem foldl_orderStep_WF (l : List (String × List String)) (ws : DepsWorkspace)
    (hl : ∀ kd ∈ l, kd ∈ ws) (hkeys : (ws.map Prod.fst).Nodup)
    (hdeps : ∀ kd ∈ ws, kd.2.Nodup) :
    ∀ acc, WFAcc ws acc → WFAcc ws (l.foldl orderStep acc) := by
  induction l with
  | nil => exact fun acc h => h
  | cons kd rest ih =>
    intro acc h
    rw [List.foldl_cons]
    refine ih (fun kd2 hkd2 => hl kd2 (List.mem_cons_of_mem _ hkd2)) _ ?_
    exact orderStep_WF ws kd (hl kd (List.mem_cons_self _ _)) hkeys
      (hdeps kd (hl kd (List.mem_cons_self _ _))) acc h

theorem orderPass_WF (ws : DepsWorkspace) (hkeys : (ws.map Prod.fst).Nodup)
    (hdeps : ∀ kd ∈ ws, kd.2.Nodup) (acc : List OrderedCrate) (h : WFAcc ws acc) :
    WFAcc ws (orderPass ws acc) :=
  foldl_orderStep_WF ws ws (fun _ h => h) hkeys hdeps acc h

theorem orderLoop_WF (ws : DepsWorkspace) (hkeys : (ws.map Prod.fst).Nodup)
    (hdeps : ∀ kd ∈ ws, kd.2.Nodup) :
    ∀ (fuel : Nat) (acc : List OrderedCrate), WFAcc ws acc →
    WFAcc ws (orderLoop ws fuel acc) := by
  intro fuel
  induction fuel with
  | zero => exact fun acc h => h
  | succ fuel ih =>
    intro acc h
    show WFAcc ws (orderLoop ws (fuel + 1) acc)
    unfold orderLoop
    by_cases hstop : (orderPass ws acc).length = acc.length
    · rw [if_pos hstop]
      exact h
    · rw [if_neg hstop]
      exact ih (orderPass ws acc) (orderPass_WF ws hkeys hdeps acc h)

/-- The empty accumulator satisfies the invariant. -/
theorem WFAcc_nil (ws : DepsWorkspace) : WFAcc ws [] := by
  refine ⟨by simp [namesOf], ?_⟩
  intro i h
  simp at h

theorem fixpoint_mem (ws : DepsWorkspace) (F : List OrderedCrate)
    (hfix : orderPass ws F = F) (hnd : (namesOf F).Nodup)
    (kd : String × List String) (hkd : kd ∈ ws) (hdeps : kd.2.Nodup)
    (hsub : ∀ d ∈ kd.2, d ∈ namesOf F) : kd.1 ∈ namesOf F := by
  have hstep := orderPass_fix_steps ws F hfix kd hkd
  unfold orderStep at hstep
  by_cases h1 : F.any (fun oc => oc.name = kd.1)
  · rcases List.any_eq_true.mp h1 with ⟨oc, hoc, hoce⟩
    simp only [decide_eq_true_eq] at hoce
    exact List.mem_map.mpr ⟨oc, hoc, hoce⟩
  · rw [if_neg h1] at hstep
    have hlen := filter_length_eq_of_subset F kd.2 hnd hdeps hsub
    rw [if_pos hlen] at hstep
    have := congrArg List.length hstep
    simp [List.length_append] at this

theorem orderLoop_result_fix (ws : DepsWorkspace)
    (hkeys : (ws.map Prod.fst).Nodup) :
    orderPass ws (orderLoop ws (ws.length + 1) []) =
      orderLoop ws (ws.length + 1) [] := by
  refine orderLoop_fixpoint ws (ws.length + 1) [] ?_ ?_ hkeys ?_
  · simp [namesOf]
  · simp [namesOf]
  · simp

theorem mem_final_of_height (ws : DepsWorkspace) (r : String → Nat)
    (hkeys : (ws.map Prod.fst).Nodup) (hdepsnd : ∀ kd ∈ ws, kd.2.Nodup)
    (hclosed : ∀ kd ∈ ws, ∀ d ∈ kd.2, d ∈ ws.map Prod.fst)
    (hacyc : ∀ kd ∈ ws, ∀ d ∈ kd.2, r d < r kd.1) :
    ∀ kd ∈ ws, kd.1 ∈ namesOf (orderLoop ws (ws.length + 1) []) := by
  have hWF := orderLoop_WF ws hkeys hdepsnd (ws.length + 1) [] (WFAcc_nil ws)
  have hfix := orderLoop_result_fix ws hkeys
  suffices h : ∀ n, ∀ kd ∈ ws, r kd.1 < n →
      kd.1 ∈ namesOf (orderLoop ws (ws.length + 1) []) by
    intro kd hkd
    exact h (r kd.1 + 1) kd hkd (Nat.lt_succ_self _)
  intro n
  induction n with
  | zero =>
    intro kd hkd h
    omega
  | succ n ih =>
    intro kd hkd hlt
    refine fixpoint_mem ws _ hfix hWF.1 kd hkd (hdepsnd kd hkd) ?_
    intro d hd
    rcases List.mem_map.mp (hclosed kd hkd d hd) with ⟨kd2, hkd2, hk2e⟩
    have hrd : r d < r kd.1 := hacyc kd hkd d hd
    have hres := ih kd2 hkd2 (by rw [hk2e]; omega)
    rw [hk2e] at hres
    exact hres

theorem namesOf_subset_keys (ws : DepsWorkspace) (F : List OrderedCrate)
    (hWF : WFAcc ws F) : ∀ n ∈ namesOf F, n ∈ ws.map Prod.fst := by
  intro n hn
  rcases List.mem_map.mp hn with ⟨oc, hoc, rfl⟩
  rcases List.mem_iff_getElem.mp hoc with ⟨i, hi, rfl⟩
  obtain ⟨deps, hl, -, -⟩ := hWF.2 i hi
  unfold lookupDeps at hl
  match hf : ws.find? (fun kd => kd.1 = F[i].name) with
  | none => rw [hf] at hl; simp at hl
  | some kd =>
    have hmem := List.mem_of_find?_eq_some hf
    have hp := List.find?_some hf
    simp only [decide_eq_true_eq] at hp
    exact List.mem_map.mpr ⟨kd, hmem, hp⟩

theorem rankOf_eq_rank_of_mem (F : List OrderedCrate) (hnd : (namesOf F).Nodup)
    (oc : OrderedCrate) (hoc : oc ∈ F) : rankOf F oc.name = oc.rank := by
  induction F with
  | nil => simp at hoc
  | cons x rest ih =>
    have hx : x.name ∉ namesOf rest := by
      rw [namesOf, List.map_cons, List.nodup_cons] at hnd
      exact hnd.1
    have hnd2 : (namesOf rest).Nodup := by
      rw [namesOf, List.map_cons, List.nodup_cons] at hnd
      exact hnd.2
    rcases List.mem_cons.mp hoc with rfl | hoc2
    · rw [rankOf_cons, if_pos rfl]
    · have hne : x.name ≠ oc.name := by
        intro he
        exact hx (he ▸ List.mem_map.mpr ⟨oc, hoc2, rfl⟩)
      rw [rankOf_cons, if_neg hne]
      exact ih hnd2 hoc2

theorem rankOf_dep_lt (ws : DepsWorkspace) (F : List OrderedCrate)
    (hWF : WFAcc ws F) (hkeys : (ws.map Prod.fst).Nodup)
    (kd : String × List String) (hkd : kd ∈ ws) (hk : kd.1 ∈ namesOf F)
    (d : String) (hd : d ∈ kd.2) : rankOf F d < rankOf F kd.1 := by
  rcases List.mem_map.mp hk with ⟨oc, hoc, hoce⟩
  rcases List.mem_iff_getElem.mp hoc with ⟨i, hi, rfl⟩
  obtain ⟨deps, hl, hdsub, hrank⟩ := hWF.2 i hi
  have hl2 : lookupDeps ws kd.1 = some kd.2 := lookupDeps_of_mem_nodup ws kd hkd hkeys
  rw [hoce] at hl
  rw [hl2] at hl
  have hdeq : deps = kd.2 := by
    injection hl.symm
  subst hdeq
  have hr1 : rankOf F kd.1 = F[i].rank := by
    rw [← hoce]
    exact rankOf_eq_rank_of_mem F hWF.1 F[i] (List.getElem_mem hi)
  have hle : rankOf F d ≤ (kd.2.map (rankOf F)).sum := by
    refine List.single_le_sum (fun x _ => Nat.zero_le x) _ ?_
    exact List.mem_map.mpr ⟨d, hd, rfl⟩
  rw [hr1, hrank]
  omega

theorem sorted_rank_pos_lt (l : List OrderedCrate) (hs : l.Sorted ocLE)
    (i j : Nat) (hi : i < l.length) (hj : j < l.length)
    (hr : (l.get ⟨j, hj⟩).rank < (l.get ⟨i, hi⟩).rank) : j < i := by
  by_contra hcon
  push_neg at hcon
  rcases Nat.eq_or_lt_of_le hcon with he | hlt
  · rw [show (⟨j, hj⟩ : Fin l.length) = ⟨i, hi⟩ from Fin.ext he.symm] at hr
    exact lt_irrefl _ hr
  · have := hs.rel_get_of_lt (show (⟨i, hi⟩ : Fin l.length) < ⟨j, hj⟩ from hlt)
    unfold ocLE at this
    rcases this with h2 | ⟨h2, -⟩
    · omega
    · omega

/-- C1.  For every workspace whose publish-relevant dependency relation is
acyclic (witnessed by a height function `r` decreasing along dependencies),
`get_publish_order` returns a permutation of all the workspace's package
names in which every dependency of a package appears strictly before it: in
particular the final sort by ascending rank with ascending-name tiebreak
never places a package before one of its publish-relevant dependencies. -/
theorem C1_publish_order_correct (ws : DepsWorkspace) (r : String → Nat)
    (hkeys : (ws.map Prod.fst).Nodup) (hdepsnd : ∀ kd ∈ ws, kd.2.Nodup)
    (hclosed : ∀ kd ∈ ws, ∀ d ∈ kd.2, d ∈ ws.map Prod.fst)
    (hacyc : ∀ kd ∈ ws, ∀ d ∈ kd.2, r d < r kd.1) :
    (get_publish_order ws).Perm (ws.map Prod.fst) ∧
    ∀ kd ∈ ws, ∀ d ∈ kd.2, ∀ (i j : Nat)
      (hi : i < (get_publish_order ws).length)
      (hj : j < (get_publish_order ws).length),
      (get_publish_order ws).get ⟨i, hi⟩ = kd.1 →
      (get_publish_order ws).get ⟨j, hj⟩ = d → j < i := by
  have hWF := orderLoop_WF ws hkeys hdepsnd (ws.length + 1) [] (WFAcc_nil ws)
  have hperm : (List.insertionSort ocLE (orderLoop ws (ws.length + 1) [])).Perm
      (orderLoop ws (ws.length + 1) []) := List.perm_insertionSort _ _
  have hsorted : (List.insertionSort ocLE (orderLoop ws (ws.length + 1) [])).Sorted
      ocLE := List.sorted_insertionSort _ _
  have hnamesperm : (get_publish_order ws).Perm
      (namesOf (orderLoop ws (ws.length + 1) [])) := hperm.map _
  constructor
  · refine hnamesperm.trans ?_
    have h1 : List.Subperm (namesOf (orderLoop ws (ws.length + 1) []))
        (ws.map Prod.fst) :=
      List.subperm_of_subset hWF.1 (namesOf_subset_keys ws _ hWF)
    have h2 : List.Subperm (ws.map Prod.fst)
        (namesOf (orderLoop ws (ws.length + 1) [])) := by
      refine List.subperm_of_subset hkeys ?_
      intro n hn
      rcases List.mem_map.mp hn with ⟨kd, hkd, rfl⟩
      exact mem_final_of_height ws r hkeys hdepsnd hclosed hacyc kd hkd
    exact h1.antisymm h2
  · intro kd hkd d hd i j hi hj hik hjd
    have hlen : (get_publish_order ws).length =
        (List.insertionSort ocLE (orderLoop ws (ws.length + 1) [])).length := by
      unfold get_publish_order
      rw [List.length_map]
    have hgi : (List.insertionSort ocLE
        (orderLoop ws (ws.length + 1) [])).get ⟨i, by omega⟩ =
        (List.insertionSort ocLE (orderLoop ws (ws.length + 1) [])).get
          ⟨i, by omega⟩ := rfl
    -- translate name equalities to the sorted entry list
    have hmapi : (get_publish_order ws).get ⟨i, hi⟩ =
        ((List.insertionSort ocLE (orderLoop ws (ws.length + 1) [])).get
          ⟨i, by omega⟩).name := by
      unfold get_publish_order
      exact List.get_map _
    have hmapj : (get_publish_order ws).get ⟨j, hj⟩ =
        ((List.insertionSort ocLE (orderLoop ws (ws.length + 1) [])).get
          ⟨j, by omega⟩).name := by
      unfold get_publish_order
      exact List.get_map _
    set S := List.insertionSort ocLE (orderLoop ws (ws.length + 1) []) with hS
    have hnmi : (S.get ⟨i, by omega⟩).name = kd.1 := by
      rw [hmapi] at hik
      exact hik
    have hnmj : (S.get ⟨j, by omega⟩).name = d := by
      rw [hmapj] at hjd
      exact hjd
    have hmemi : S.get ⟨i, by omega⟩ ∈ orderLoop ws (ws.length + 1) [] :=
      hperm.subset (List.get_mem S _ _)
    have hmemj : S.get ⟨j, by omega⟩ ∈ orderLoop ws (ws.length + 1) [] :=
      hperm.subset (List.get_mem S _ _)
    have hranki : (S.get ⟨i, by omega⟩).rank =
        rankOf (orderLoop ws (ws.length + 1) []) kd.1 := by
      rw [← hnmi]
      exact (rankOf_eq_rank_of_mem _ hWF.1 _ hmemi).symm
    have hrankj : (S.get ⟨j, by omega⟩).rank =
        rankOf (orderLoop ws (ws.length + 1) []) d := by
      rw [← hnmj]
      exact (rankOf_eq_rank_of_mem _ hWF.1 _ hmemj).symm
    have hkmem : kd.1 ∈ namesOf (orderLoop ws (ws.length + 1) []) :=
      mem_final_of_height ws r hkeys hdepsnd hclosed hacyc kd hkd
    have hlt := rankOf_dep_lt ws _ hWF hkeys kd hkd hkmem d hd
    refine sorted_rank_pos_lt S hsorted i j (by omega) (by omega) ?_
    rw [hranki, hrankj]
    exact hlt

/-- C1, witness at the two-crate workspace `A`, `B` with `B` depending on
`A` and height function 0 for `A`, 1 otherwise. -/
theorem C1_publish_order_correct_witness :
    (get_publish_order [("A", []), ("B", ["A"])]).Perm
      ([("A", []), ("B", ["A"])].map Prod.fst) ∧
    ∀ kd ∈ ([("A", ([] : List String)), ("B", ["A"])] : DepsWorkspace),
      ∀ d ∈ kd.2, ∀ (i j : Nat)
      (hi : i < (get_publish_order [("A", []), ("B", ["A"])]).length)
      (hj : j < (get_publish_order [("A", []), ("B", ["A"])]).length),
      (get_publish_order [("A", []), ("B", ["A"])]).get ⟨i, hi⟩ = kd.1 →
      (get_publish_order [("A", []), ("B", ["A"])]).get ⟨j, hj⟩ = d → j < i :=
  C1_publish_order_correct [("A", []), ("B", ["A"])]
    (fun s => if s = "A" then 0 else 1)
    (by decide) (by decide) (by decide) (by decide)

theorem mem_take_getElem (l : List OrderedCrate) (i : Nat) (oc : OrderedCrate)
    (h : oc ∈ l.take i) : ∃ j, ∃ hj : j < l.length, j < i ∧ l[j] = oc := by
  induction l generalizing i with
  | nil => simp at h
  | cons x rest ih =>
    cases i with
    | zero => simp at h
    | succ i =>
      rw [List.take_succ_cons] at h
      rcases List.mem_cons.mp h with rfl | h2
      · exact ⟨0, by simp, by omega, rfl⟩
      · rcases ih i h2 with ⟨j, hj, hji, hje⟩
        exact ⟨j + 1, by simpa using Nat.succ_lt_succ hj, by omega, by simpa using hje⟩

theorem grounded_of_WF (ws : DepsWorkspace) (F : List OrderedCrate)
    (hWF : WFAcc ws F) : ∀ i (hi : i < F.length), Grounded ws F[i].name := by
  intro i
  induction i using Nat.strong_induction_on with
  | _ i ih =>
    intro hi
    obtain ⟨deps, hl, hdsub, -⟩ := hWF.2 i hi
    refine Grounded.mk _ deps hl ?_
    intro d hd
    rcases List.mem_map.mp (hdsub d hd) with ⟨oc, hoc, hoce⟩
    rcases mem_take_getElem F i oc hoc with ⟨j, hj, hji, hje⟩
    rw [← hoce, ← hje]
    exact ih j hji hj

theorem mem_final_of_grounded (ws : DepsWorkspace)
    (hkeys : (ws.map Prod.fst).Nodup) (hdepsnd : ∀ kd ∈ ws, kd.2.Nodup) :
    ∀ k, Grounded ws k → k ∈ namesOf (orderLoop ws (ws.length + 1) []) := by
  have hWF := orderLoop_WF ws hkeys hdepsnd (ws.length + 1) [] (WFAcc_nil ws)
  have hfix := orderLoop_result_fix ws hkeys
  intro k hg
  induction hg with
  | mk k deps hk hdeps ih =>
    unfold lookupDeps at hk
    match hf : ws.find? (fun kd => kd.1 = k) with
    | none => rw [hf] at hk; simp at hk
    | some kd =>
      rw [hf] at hk
      have hmem := List.mem_of_find?_eq_some hf
      have hp : kd.1 = k := by
        have := List.find?_some hf
        simpa using this
      have hdeq : kd.2 = deps := by
        injection hk
      have hres := fixpoint_mem ws _ hfix hWF.1 kd hmem (hdepsnd kd hmem) ?_
      · rw [hp] at hres
        exact hres
      · intro d hd
        exact ih d (hdeq ▸ hd)

theorem grounded_congr (ws₁ ws₂ : DepsWorkspace)
    (hsame : ∀ n, (lookupDeps ws₁ n = none ∧ lookupDeps ws₂ n = none) ∨
      ∃ d₁ d₂, lookupDeps ws₁ n = some d₁ ∧ lookupDeps ws₂ n = some d₂ ∧ d₁.Perm d₂) :
    ∀ k, Grounded ws₁ k → Grounded ws₂ k := by
  intro k hg
  induction hg with
  | mk k deps hk hdeps ih =>
    rcases hsame k with ⟨h1, -⟩ | ⟨d₁, d₂, h1, h2, hperm⟩
    · rw [hk] at h1
      exact absurd h1 (by simp)
    · rw [hk] at h1
      have hdeq : deps = d₁ := by
        injection h1
      refine Grounded.mk _ d₂ h2 ?_
      intro d hd
      refine ih d ?_
      rw [hdeq]
      exact hperm.mem_iff.mpr hd

theorem rank_agree (ws₁ ws₂ : DepsWorkspace) (F₁ F₂ : List OrderedCrate)
    (hWF₁ : WFAcc ws₁ F₁) (hWF₂ : WFAcc ws₂ F₂)
    (hsame : ∀ n, (lookupDeps ws₁ n = none ∧ lookupDeps ws₂ n = none) ∨
      ∃ d₁ d₂, lookupDeps ws₁ n = some d₁ ∧ lookupDeps ws₂ n = some d₂ ∧ d₁.Perm d₂)
    (hcompl : ∀ k, Grounded ws₂ k → k ∈ namesOf F₂) :
    ∀ i (hi : i < F₁.length), rankOf F₂ F₁[i].name = F₁[i].rank := by
  intro i
  induction i using Nat.strong_induction_on with
  | _ i ih =>
    intro hi
    obtain ⟨deps, hl, hdsub, hrank⟩ := hWF₁.2 i hi
    have hg₁ : Grounded ws₁ F₁[i].name := grounded_of_WF ws₁ F₁ hWF₁ i hi
    have hg₂ : Grounded ws₂ F₁[i].name := grounded_congr ws₁ ws₂ hsame _ hg₁
    have hmem₂ : F₁[i].name ∈ namesOf F₂ := hcompl _ hg₂
    rcases List.mem_map.mp hmem₂ with ⟨oc₂, hoc₂, hoce₂⟩
    rcases List.mem_iff_getElem.mp hoc₂ with ⟨i₂, hi₂, hie₂⟩
    obtain ⟨deps₂, hl₂, hdsub₂, hrank₂⟩ := hWF₂.2 i₂ hi₂
    rcases hsame F₁[i].name with ⟨h1, -⟩ | ⟨d₁, d₂, h1, h2, hperm⟩
    · rw [hl] at h1
      exact absurd h1 (by simp)
    · rw [hl] at h1
      have hde₁ : d₁ = deps := by
        injection h1.symm
      have hname₂ : F₂[i₂].name = F₁[i].name := by
        rw [hie₂, hoce₂]
      rw [hname₂, h2] at hl₂
      have hde₂ : deps₂ = d₂ := by
        injection hl₂.symm
      have hpermd : deps.Perm deps₂ := by
        rw [← hde₁, hde₂]
        exact hperm
      have hr2 : rankOf F₂ F₁[i].name = F₂[i₂].rank := by
        rw [← hname₂]
        exact rankOf_eq_rank_of_mem F₂ hWF₂.1 F₂[i₂] (List.getElem_mem hi₂)
      have hsum2 : (deps₂.map (rankOf F₂)).sum = (deps.map (rankOf F₂)).sum :=
        ((hpermd.symm).map (rankOf F₂)).sum_eq
      have hsum1 : (deps.map (rankOf F₂)).sum = (deps.map (rankOf F₁)).sum := by
        refine congrArg List.sum ?_
        refine List.map_congr_left ?_
        intro d hd
        rcases List.mem_map.mp (hdsub d hd) with ⟨oc, hoc, hoce⟩
        rcases mem_take_getElem F₁ i oc hoc with ⟨j, hj, hji, hje⟩
        have e₂ : rankOf F₂ d = F₁[j].rank := by
          rw [← hoce, ← hje]
          exact ih j hji hj
        have e₁ : rankOf F₁ d = F₁[j].rank := by
          rw [← hoce, ← hje]
          exact rankOf_eq_rank_of_mem F₁ hWF₁.1 F₁[j] (List.getElem_mem hj)
        rw [e₁, e₂]
      rw [hr2, hrank₂, hrank, hsum2, hsum1]

theorem map_name_rank_eq (F G : List OrderedCrate)
    (h : ∀ oc ∈ F, rankOf G oc.name = oc.rank) :
    (namesOf F).map (fun n => ({ name := n, rank := rankOf G n } : OrderedCrate)) = F := by
  unfold namesOf
  rw [List.map_map]
  have hpt : ∀ oc ∈ F,
      ((fun n => ({ name := n, rank := rankOf G n } : OrderedCrate)) ∘
        (fun oc => oc.name)) oc = id oc := by
    intro oc hoc
    have hr := h oc hoc
    cases oc with
    | mk nm rk =>
      simp only [Function.comp, id]
      simp only at hr
      rw [hr]
  rw [List.map_congr_left hpt, List.map_id]

theorem final_entries_perm (ws₁ ws₂ : DepsWorkspace) (F₁ F₂ : List OrderedCrate)
    (hWF₁ : WFAcc ws₁ F₁) (hWF₂ : WFAcc ws₂ F₂)
    (hnames : (namesOf F₁).Perm (namesOf F₂))
    (hrk : ∀ oc ∈ F₁, rankOf F₂ oc.name = oc.rank) :
    F₁.Perm F₂ := by
  have h₁ : (namesOf F₁).map
      (fun n => ({ name := n, rank := rankOf F₂ n } : OrderedCrate)) = F₁ :=
    map_name_rank_eq F₁ F₂ hrk
  have h₂ : (namesOf F₂).map
      (fun n => ({ name := n, rank := rankOf F₂ n } : OrderedCrate)) = F₂ :=
    map_name_rank_eq F₂ F₂ (fun oc hoc => rankOf_eq_rank_of_mem F₂ hWF₂.1 oc hoc)
  have := hnames.map (fun n => ({ name := n, rank := rankOf F₂ n } : OrderedCrate))
  rw [h₁, h₂] at this
  exact this

/-- C8: the publish order is a deterministic function of the name-to-record
mapping alone.  For any two workspace listings with duplicate-free keys and
duplicate-free dependency lists that represent the same mapping — every name
either misses in both or resolves in both to dependency lists that are
permutations of each other (hash-map iteration order may differ) —
`get_publish_order` returns the identical list of names. -/
theorem C8_order_deterministic (ws₁ ws₂ : DepsWorkspace)
    (hkeys₁ : (ws₁.map Prod.fst).Nodup) (hkeys₂ : (ws₂.map Prod.fst).Nodup)
    (hdepsnd₁ : ∀ kd ∈ ws₁, kd.2.Nodup) (hdepsnd₂ : ∀ kd ∈ ws₂, kd.2.Nodup)
    (hsame : ∀ n, (lookupDeps ws₁ n = none ∧ lookupDeps ws₂ n = none) ∨
      ∃ d₁ d₂, lookupDeps ws₁ n = some d₁ ∧ lookupDeps ws₂ n = some d₂ ∧ d₁.Perm d₂) :
    get_publish_order ws₁ = get_publish_order ws₂ := by
  have hsame' : ∀ n, (lookupDeps ws₂ n = none ∧ lookupDeps ws₁ n = none) ∨
      ∃ d₁ d₂, lookupDeps ws₂ n = some d₁ ∧ lookupDeps ws₁ n = some d₂ ∧ d₁.Perm d₂ := by
    intro n
    rcases hsame n with ⟨h1, h2⟩ | ⟨d₁, d₂, h1, h2, hp⟩
    · exact Or.inl ⟨h2, h1⟩
    · exact Or.inr ⟨d₂, d₁, h2, h1, hp.symm⟩
  have hWF₁ := orderLoop_WF ws₁ hkeys₁ hdepsnd₁ (ws₁.length + 1) [] (WFAcc_nil ws₁)
  have hWF₂ := orderLoop_WF ws₂ hkeys₂ hdepsnd₂ (ws₂.length + 1) [] (WFAcc_nil ws₂)
  have hss₁ : namesOf (orderLoop ws₁ (ws₁.length + 1) []) ⊆
      namesOf (orderLoop ws₂ (ws₂.length + 1) []) := by
    intro n hn
    rcases List.mem_map.mp hn with ⟨oc, hoc, rfl⟩
    rcases List.mem_iff_getElem.mp hoc with ⟨i, hi, rfl⟩
    exact mem_final_of_grounded ws₂ hkeys₂ hdepsnd₂ _
      (grounded_congr ws₁ ws₂ hsame _ (grounded_of_WF ws₁ _ hWF₁ i hi))
  have hss₂ : namesOf (orderLoop ws₂ (ws₂.length + 1) []) ⊆
      namesOf (orderLoop ws₁ (ws₁.length + 1) []) := by
    intro n hn
    rcases List.mem_map.mp hn with ⟨oc, hoc, rfl⟩
    rcases List.mem_iff_getElem.mp hoc with ⟨i, hi, rfl⟩
    exact mem_final_of_grounded ws₁ hkeys₁ hdepsnd₁ _
      (grounded_congr ws₂ ws₁ hsame' _ (grounded_of_WF ws₂ _ hWF₂ i hi))
  have hnames : (namesOf (orderLoop ws₁ (ws₁.length + 1) [])).Perm
      (namesOf (orderLoop ws₂ (ws₂.length + 1) [])) :=
    (List.Nodup.subperm hWF₁.1 hss₁).antisymm (List.Nodup.subperm hWF₂.1 hss₂)
  have hrk : ∀ oc ∈ orderLoop ws₁ (ws₁.length + 1) [],
      rankOf (orderLoop ws₂ (ws₂.length + 1) []) oc.name = oc.rank := by
    intro oc hoc
    rcases List.mem_iff_getElem.mp hoc with ⟨i, hi, rfl⟩
    exact rank_agree ws₁ ws₂ _ _ hWF₁ hWF₂ hsame
      (mem_final_of_grounded ws₂ hkeys₂ hdepsnd₂) i hi
  have hperm : (orderLoop ws₁ (ws₁.length + 1) []).Perm
      (orderLoop ws₂ (ws₂.length + 1) []) :=
    final_entries_perm ws₁ ws₂ _ _ hWF₁ hWF₂ hnames hrk
  have hsortperm : (List.insertionSort ocLE (orderLoop ws₁ (ws₁.length + 1) [])).Perm
      (List.insertionSort ocLE (orderLoop ws₂ (ws₂.length + 1) [])) :=
    ((List.perm_insertionSort ocLE _).trans hperm).trans
      (List.perm_insertionSort ocLE _).symm
  have hsorteq : List.insertionSort ocLE (orderLoop ws₁ (ws₁.length + 1) []) =
      List.insertionSort ocLE (orderLoop ws₂ (ws₂.length + 1) []) :=
    List.eq_of_perm_of_sorted hsortperm
      (List.sorted_insertionSort ocLE _) (List.sorted_insertionSort ocLE _)
  unfold get_publish_order
  rw [hsorteq]

/-- C8, witness: the two-crate workspace listed in both hash-iteration
orders yields the same publish order. -/
theorem C8_order_deterministic_witness :
    get_publish_order [("A", []), ("B", ["A"])] =
      get_publish_order [("B", ["A"]), ("A", [])] :=
  C8_order_deterministic [("A", []), ("B", ["A"])] [("B", ["A"]), ("A", [])]
    (by decide) (by decide) (by decide) (by decide)
    (by
      intro n
      by_cases hA : "A" = n
      · subst hA
        exact Or.inr ⟨[], [], rfl, rfl, List.Perm.refl _⟩
      · by_cases hB : "B" = n
        · subst hB
          exact Or.inr ⟨["A"], ["A"], rfl, rfl, List.Perm.refl _⟩
        · refine Or.inl ⟨?_, ?_⟩
          · unfold lookupDeps
            rw [List.find?_cons_of_neg _ (by simp [hA]),
                List.find?_cons_of_neg _ (by simp [hB])]
            rfl
          · unfold lookupDeps
            rw [List.find?_cons_of_neg _ (by simp [hB]),
                List.find?_cons_of_neg _ (by simp [hA])]
            rfl)

theorem mem_of_contains_eq_true {l : List String} {a : String}
    (h : l.contains a = true) : a ∈ l := by
  by_contra hc
  rw [contains_eq_false_of_not_mem hc] at h
  exact absurd h (by simp)

theorem reaches_trans (ws : PWorkspace) (a b z : String)
    (h1 : Reaches ws a b) : Reaches ws b z → Reaches ws a z := by
  induction h1 with
  | refl k => exact fun h => h
  | step k d q c hk hd hq ih => exact fun h2 => Reaches.step k d z c hk hd (ih h2)

theorem reaches_rank_le (ws : PWorkspace) (h : String → Nat)
    (hedge : ∀ x c, lookupCrate ws x = some c → ∀ d ∈ c.deps, h d < h x)
    (a b : String) (hr : Reaches ws a b) : h b ≤ h a := by
  induction hr with
  | refl k => exact le_refl _
  | step k d q c hk hd hq ih => exact le_trans ih (le_of_lt (hedge k c hk d hd))

theorem reaches_cases (ws : PWorkspace) (k q : String) (h : Reaches ws k q) :
    q = k ∨ ∃ d c, lookupCrate ws k = some c ∧ d ∈ c.deps ∧ Reaches ws d q := by
  cases h with
  | refl => exact Or.inl rfl
  | step _ d _ c hk hd hq => exact Or.inr ⟨d, c, hk, hd, hq⟩

theorem validate_sound (ws : PWorkspace) (excl : List String) (h : String → Nat)
    (hedge : ∀ x c, lookupCrate ws x = some c → ∀ d ∈ c.deps, h d < h x) :
    ∀ fuel visited k, validateCrate ws excl fuel visited k = true →
    ∀ q, Reaches ws k q →
      (q ∉ excl ∧ ∃ c, lookupCrate ws q = some c ∧ c.shouldBePublished = true) ∨
      ∃ v ∈ visited, Reaches ws k v ∧ Reaches ws v q := by
  intro fuel
  induction fuel with
  | zero =>
    intro visited k hv
    simp [validateCrate] at hv
  | succ fuel ih =>
    intro visited k hv q hq
    simp only [validateCrate] at hv
    by_cases hvis : k ∈ visited
    · exact Or.inr ⟨k, hvis, Reaches.refl k, hq⟩
    · rw [contains_eq_false_of_not_mem hvis, if_neg Bool.false_ne_true] at hv
      by_cases hexcl : k ∈ excl
      · rw [contains_eq_true_of_mem hexcl, if_pos rfl] at hv
        exact absurd hv (by simp)
      · rw [contains_eq_false_of_not_mem hexcl, if_neg Bool.false_ne_true] at hv
        cases hlk : lookupCrate ws k with
        | none =>
          simp only [hlk] at hv
          exact absurd hv (by simp)
        | some c =>
          simp only [hlk] at hv
          by_cases hsb : c.shouldBePublished = true
          · rw [if_pos hsb] at hv
            rcases reaches_cases ws k q hq with rfl | ⟨d, c2, hk2, hd2, hq2⟩
            · exact Or.inl ⟨hexcl, c, hlk, hsb⟩
            · rw [hlk] at hk2
              have hc2 : c2 = c := by
                injection hk2.symm
              subst hc2
              have hvd : validateCrate ws excl fuel (visited ++ [k]) d = true :=
                List.all_eq_true.mp hv d hd2
              rcases ih (visited ++ [k]) d hvd q hq2 with hpass | ⟨v, hv1, hv2, hv3⟩
              · exact Or.inl hpass
              · rcases List.mem_append.mp hv1 with hvv | hvk
                · exact Or.inr ⟨v, hvv, Reaches.step k d v c2 hlk hd2 hv2, hv3⟩
                · simp only [List.mem_singleton] at hvk
                  have hle : h k ≤ h d := reaches_rank_le ws h hedge d k (hvk ▸ hv2)
                  have hlt : h d < h k := hedge k c2 hlk d hd2
                  omega
          · rw [if_neg hsb] at hv
            exact absurd hv (by simp)

theorem excludePassGo_mem (ws : PWorkspace) (snap : List String) :
    ∀ rest acc out, excludePassGo ws snap acc rest = Except.ok out →
    ∀ x ∈ acc, x ∈ out := by
  intro rest
  induction rest with
  | nil =>
    intro acc out h x hx
    simp only [excludePassGo] at h
    injection h with h
    exact h ▸ hx
  | cons k rest ih =>
    intro acc out h x hx
    simp only [excludePassGo] at h
    cases hlk : lookupCrate ws k with
    | none =>
      simp only [hlk] at h
      exact Except.noConfusion h
    | some c =>
      simp only [hlk] at h
      by_cases hcond : (c.deps.any (fun d => snap.contains d) && !(acc.contains k)) = true
      · rw [if_pos hcond] at h
        exact ih _ _ h x (List.mem_append_left _ hx)
      · rw [if_neg hcond] at h
        exact ih _ _ h x hx

theorem excludeLoop_mem (ws : PWorkspace) (order : List String) :
    ∀ fuel acc out, excludeLoop ws order fuel acc = Except.ok out →
    ∀ x ∈ acc, x ∈ out := by
  intro fuel
  induction fuel with
  | zero =>
    intro acc out h x hx
    simp only [excludeLoop] at h
    injection h with h
    exact h ▸ hx
  | succ fuel ih =>
    intro acc out h x hx
    simp only [excludeLoop] at h
    cases hp : excludePassGo ws acc acc order with
    | error e =>
      simp only [hp] at h
      exact Except.noConfusion h
    | ok next =>
      simp only [hp] at h
      by_cases hl : next.length = acc.length
      · rw [if_pos hl] at h
        injection h with h
        exact h ▸ excludePassGo_mem ws acc order acc next hp x hx
      · rw [if_neg hl] at h
        exact ih next out h x (excludePassGo_mem ws acc order acc next hp x hx)

theorem registerCrates_reaches (ws : PWorkspace) :
    ∀ fuel reg pending out, registerCrates ws fuel reg pending = Except.ok out →
    ∀ x ∈ out, x ∈ reg ∨ ∃ y ∈ pending, Reaches ws y x := by
  intro fuel
  induction fuel with
  | zero =>
    intro reg pending out h x hx
    cases pending with
    | nil =>
      simp only [registerCrates] at h
      injection h with h
      exact Or.inl (h ▸ hx)
    | cons p ps =>
      simp only [registerCrates] at h
      exact Except.noConfusion h
  | succ fuel ih =>
    intro reg pending out h x hx
    cases pending with
    | nil =>
      simp only [registerCrates] at h
      injection h with h
      exact Or.inl (h ▸ hx)
    | cons k ps =>
      simp only [registerCrates] at h
      by_cases hk : k ∈ reg
      · rw [contains_eq_true_of_mem hk, if_pos rfl] at h
        rcases ih reg ps out h x hx with h1 | ⟨y, hy, hr⟩
        · exact Or.inl h1
        · exact Or.inr ⟨y, List.mem_cons_of_mem _ hy, hr⟩
      · rw [contains_eq_false_of_not_mem hk, if_neg Bool.false_ne_true] at h
        cases hlk : lookupCrate ws k with
        | none =>
          simp only [hlk] at h
          exact Except.noConfusion h
        | some c =>
          simp only [hlk] at h
          rcases ih _ _ out h x hx with h1 | ⟨y, hy, hr⟩
          · rcases List.mem_append.mp h1 with h2 | h2
            · exact Or.inl h2
            · simp only [List.mem_singleton] at h2
              subst h2
              exact Or.inr ⟨x, List.mem_cons_self _ _, Reaches.refl x⟩
          · rcases List.mem_append.mp hy with h2 | h2
            · exact Or.inr ⟨k, List.mem_cons_self _ _, Reaches.step k y x c hlk h2 hr⟩
            · exact Or.inr ⟨y, List.mem_cons_of_mem _ h2, hr⟩

theorem pubStep_published (np : String → Bool) (st : LoopState) (k : String) :
    (pubStep np st k).published =
      if np k then st.published ++ [k] else st.published := rfl

theorem publishFold_published (np : String → Bool) :
    ∀ (toDo : List String) (st : LoopState) (p : String),
    p ∈ (toDo.foldl (pubStep np) st).published → p ∈ st.published ∨ p ∈ toDo := by
  intro toDo
  induction toDo with
  | nil => exact fun st p hp => Or.inl hp
  | cons k rest ih =>
    intro st p hp
    rw [List.foldl_cons] at hp
    rcases ih _ p hp with h1 | h1
    · rw [pubStep_published] at h1
      by_cases hn : np k = true
      · rw [if_pos hn] at h1
        rcases List.mem_append.mp h1 with h2 | h2
        · exact Or.inl h2
        · simp only [List.mem_singleton] at h2
          subst h2
          exact Or.inr (List.mem_cons_self _ _)
      · rw [if_neg hn] at h1
        exact Or.inl h1
    · exact Or.inr (List.mem_cons_of_mem _ h1)

theorem processSel_published (ws : PWorkspace) (order : List String)
    (np : String → Bool) (st : LoopState) (sel : String) (st' : LoopState)
    (h : processSel ws order np st sel = Except.ok st') :
    ∀ p ∈ st'.published, p ∈ st.published ∨
      ∃ reg, registerCrates ws (totalDeps ws + ws.length + 2) [] [sel] = Except.ok reg ∧
        p ∈ reg := by
  intro p hp
  simp only [processSel, what_needs_publishing] at h
  by_cases hs : st.processed.contains sel = true
  · rw [if_pos hs] at h
    injection h with h
    exact Or.inl (h ▸ hp)
  · rw [if_neg hs] at h
    cases hreg : registerCrates ws (totalDeps ws + ws.length + 2) [] [sel] with
    | error e =>
      simp only [hreg] at h
      exact Except.noConfusion h
    | ok reg =>
      simp only [hreg] at h
      injection h with h
      subst h
      dsimp only at hp
      rcases publishFold_published np _ _ p hp with h1 | h1
      · exact Or.inl h1
      · have h2 := List.mem_of_mem_filter h1
        have h3 := List.of_mem_filter h2
        exact Or.inr ⟨reg, rfl, mem_of_contains_eq_true h3⟩

theorem runLoop_published (ws : PWorkspace) (order : List String)
    (np : String → Bool) :
    ∀ sels st st', runLoop ws order np st sels = Except.ok st' →
    ∀ p ∈ st'.published, p ∈ st.published ∨
      ∃ sel ∈ sels,
        ∃ reg, registerCrates ws (totalDeps ws + ws.length + 2) [] [sel] = Except.ok reg ∧
          p ∈ reg := by
  intro sels
  induction sels with
  | nil =>
    intro st st' h p hp
    simp only [runLoop] at h
    injection h with h
    exact Or.inl (h ▸ hp)
  | cons sel rest ih =>
    intro st st' h p hp
    simp only [runLoop] at h
    cases hps : processSel ws order np st sel with
    | error e =>
      simp only [hps] at h
      exact Except.noConfusion h
    | ok st1 =>
      simp only [hps] at h
      rcases ih st1 st' h p hp with h1 | ⟨s, hs, reg, hreg, hpreg⟩
      · rcases processSel_published ws order np st sel st1 hps p h1 with h2 | ⟨reg, hreg, hpreg⟩
        · exact Or.inl h2
        · exact Or.inr ⟨sel, List.mem_cons_self _ _, reg, hreg, hpreg⟩
      · exact Or.inr ⟨s, List.mem_cons_of_mem _ hs, reg, hreg, hpreg⟩

theorem depsWs_keys (ws : PWorkspace) :
    (depsWs ws).map Prod.fst = ws.map Prod.fst := by
  unfold depsWs
  rw [List.map_map]
  rfl

theorem publishRun_ok_parts (ws : PWorkspace) (needsPub : String → Bool) (opts : RunOpts)
    (res : RunResult) (h : publishRun ws needsPub opts = Except.ok res) :
    (∀ kc ∈ ws, kc.1 ∈ get_publish_order (depsWs ws)) ∧
    ∃ excl cands,
      excludeLoop ws (get_publish_order (depsWs ws))
        ((get_publish_order (depsWs ws)).length + 1) opts.exclude = Except.ok excl ∧
      candidates ws (get_publish_order (depsWs ws)) excl opts = Except.ok cands ∧
      res.selected = retainFrom opts.startFrom excl cands ∧
      (∀ s ∈ res.selected, validateCrate ws excl (ws.length + 2) [] s = true) ∧
      (res.published = [] ∨
        ∃ st, runLoop ws (get_publish_order (depsWs ws)) needsPub
          ⟨[], []⟩ res.selected = Except.ok st ∧ res.published = st.published) := by
  simp only [publishRun] at h
  by_cases hall : ws.all (fun kc => (get_publish_order (depsWs ws)).contains kc.1) = true
  · rw [if_pos hall] at h
    have horder : ∀ kc ∈ ws, kc.1 ∈ get_publish_order (depsWs ws) := by
      intro kc hkc
      exact mem_of_contains_eq_true (List.all_eq_true.mp hall kc hkc)
    cases hexc : excludeLoop ws (get_publish_order (depsWs ws))
        ((get_publish_order (depsWs ws)).length + 1) opts.exclude with
    | error e =>
      simp only [hexc] at h
      exact Except.noConfusion h
    | ok excl =>
      simp only [hexc] at h
      cases hcand : candidates ws (get_publish_order (depsWs ws)) excl opts with
      | error e =>
        simp only [hcand] at h
        exact Except.noConfusion h
      | ok cands =>
        simp only [hcand] at h
        by_cases hemp : (retainFrom opts.startFrom excl cands).isEmpty = true
        · rw [if_pos hemp] at h
          exact Except.noConfusion h
        · rw [if_neg hemp] at h
          by_cases hval : (retainFrom opts.startFrom excl cands).all
              (fun s => validateCrate ws excl (ws.length + 2) [] s) = true
          · rw [if_pos hval] at h
            by_cases hstop : opts.stopAtValidation = true
            · rw [if_pos hstop] at h
              injection h with h
              subst h
              refine ⟨horder, excl, cands, rfl, hcand, rfl, ?_, Or.inl rfl⟩
              intro s hs
              exact List.all_eq_true.mp hval s hs
            · rw [if_neg hstop] at h
              cases hrl : runLoop ws (get_publish_order (depsWs ws)) needsPub
                  { processed := [], published := [] }
                  (retainFrom opts.startFrom excl cands) with
              | error e =>
                simp only [hrl] at h
                exact Except.noConfusion h
              | ok st =>
                simp only [hrl] at h
                injection h with h
                subst h
                refine ⟨horder, excl, cands, rfl, hcand, rfl, ?_, Or.inr ⟨st, hrl, rfl⟩⟩
                intro s hs
                exact List.all_eq_true.mp hval s hs
          · rw [if_neg hval] at h
            exact Except.noConfusion h
  · rw [if_neg hall] at h
    exact Except.noConfusion h

theorem publish_order_edge_lt (ws : PWorkspace)
    (hkeys : (ws.map Prod.fst).Nodup)
    (hdepsnd : ∀ kc ∈ ws, kc.2.deps.Nodup)
    (horder : ∀ kc ∈ ws, kc.1 ∈ get_publish_order (depsWs ws)) :
    ∀ x c, lookupCrate ws x = some c → ∀ d ∈ c.deps,
      rankOf (orderLoop (depsWs ws) ((depsWs ws).length + 1) []) d <
      rankOf (orderLoop (depsWs ws) ((depsWs ws).length + 1) []) x := by
  have hkeys2 : ((depsWs ws).map Prod.fst).Nodup := by
    rw [depsWs_keys]
    exact hkeys
  have hdepsnd2 : ∀ kd ∈ depsWs ws, kd.2.Nodup := by
    intro kd hkd
    rcases List.mem_map.mp hkd with ⟨kc, hkc, rfl⟩
    exact hdepsnd kc hkc
  have hWF := orderLoop_WF (depsWs ws) hkeys2 hdepsnd2 ((depsWs ws).length + 1) []
    (WFAcc_nil _)
  intro x c hlk d hd
  unfold lookupCrate at hlk
  cases hf : ws.find? (fun kc => kc.1 = x) with
  | none =>
    rw [hf] at hlk
    exact absurd hlk (by simp)
  | some kc =>
    rw [hf] at hlk
    have hmem := List.mem_of_find?_eq_some hf
    have hp : kc.1 = x := by
      have := List.find?_some hf
      simpa using this
    have hc : kc.2 = c := by
      injection hlk
    have hkd : (x, c.deps) ∈ depsWs ws := by
      refine List.mem_map.mpr ⟨kc, hmem, ?_⟩
      rw [hp, hc]
    have hx : x ∈ namesOf (orderLoop (depsWs ws) ((depsWs ws).length + 1) []) := by
      have h1 : x ∈ get_publish_order (depsWs ws) := by
        have h2 := horder kc hmem
        rw [hp] at h2
        exact h2
      unfold get_publish_order at h1
      rcases List.mem_map.mp h1 with ⟨oc, hoc, hoce⟩
      have hperm := List.perm_insertionSort ocLE
        (orderLoop (depsWs ws) ((depsWs ws).length + 1) [])
      exact List.mem_map.mpr ⟨oc, hperm.mem_iff.mp hoc, hoce⟩
    exact rankOf_dep_lt (depsWs ws) _ hWF hkeys2 (x, c.deps) hkd hx d hd

/-- C3: in every run of the publish pipeline, validation guards publishing.
Whenever a run completes and a crate was handed to `workspace.publish`,
every crate in its transitive publish-relevant dependency closure is not
excluded on the command line, exists in the workspace, and has
`should_be_published` set: any selected candidate whose closure violates
this fails `validate_crates`, and the run aborts before any publishing
step.  Key hygiene (duplicate-free hash-map keys and dependency lists) is
assumed. -/
theorem C3_validation_guards_publishing (ws : PWorkspace) (needsPub : String → Bool)
    (opts : RunOpts) (res : RunResult)
    (hkeys : (ws.map Prod.fst).Nodup)
    (hdepsnd : ∀ kc ∈ ws, kc.2.deps.Nodup)
    (hrun : publishRun ws needsPub opts = Except.ok res) :
    ∀ p ∈ res.published, ∀ q, Reaches ws p q →
      q ∉ opts.exclude ∧ ∃ c, lookupCrate ws q = some c ∧ c.shouldBePublished = true := by
  obtain ⟨horder, excl, cands, hexc, hcand, hsel, hval, hpub⟩ :=
    publishRun_ok_parts ws needsPub opts res hrun
  intro p hp q hq
  rcases hpub with hnil | ⟨st, hrl, hpe⟩
  · rw [hnil] at hp
    simp at hp
  · rw [hpe] at hp
    rcases runLoop_published ws _ needsPub res.selected ⟨[], []⟩ st hrl p hp with
      h1 | ⟨sel, hselmem, reg, hreg, hpreg⟩
    · simp at h1
    · rcases registerCrates_reaches ws _ [] [sel] reg hreg p hpreg with h2 | ⟨y, hy, hr⟩
      · simp at h2
      · simp only [List.mem_singleton] at hy
        subst hy
        have hreach : Reaches ws y q := reaches_trans ws y p q hr hq
        have hvs : validateCrate ws excl (ws.length + 2) [] y = true := hval y hselmem
        have hedge := publish_order_edge_lt ws hkeys hdepsnd horder
        rcases validate_sound ws excl
            (rankOf (orderLoop (depsWs ws) ((depsWs ws).length + 1) [])) hedge
            (ws.length + 2) [] y hvs q hreach with hpass | ⟨v, hv, -, -⟩
        · refine ⟨?_, hpass.2⟩
          intro hqex
          exact hpass.1 (excludeLoop_mem ws _ _ opts.exclude excl hexc q hqex)
        · simp at hv

/-- C3, witness: a two-crate run (`B` depending on `A`, everything
publishable, nothing excluded) completes publishing `A` then `B`; the
theorem applied to the published crate `B` and its dependency `A` yields
the closure guarantees for `A`. -/
theorem C3_validation_guards_publishing_witness :
    "A" ∉ (RunOpts.mk [] none false [] false).exclude ∧
    ∃ c, lookupCrate [("A", ⟨[], true⟩), ("B", ⟨["A"], true⟩)] "A" = some c ∧
      c.shouldBePublished = true :=
  C3_validation_guards_publishing [("A", ⟨[], true⟩), ("B", ⟨["A"], true⟩)]
    (fun _ => true) (RunOpts.mk [] none false [] false)
    (RunResult.mk ["A", "B"] ["A", "B"]) (by decide) (by decide) rfl
    "B" (by decide) "A"
    (Reaches.step "B" "A" "A" ⟨["A"], true⟩ rfl (by decide) (Reaches.refl "A"))

theorem candidatesA_sublist (ws : PWorkspace) (excl : List String)
    (sf : Option String) :
    ∀ l cs, candidatesA ws excl sf l = Except.ok cs → cs.Sublist l := by
  intro l
  induction l with
  | nil =>
    intro cs h
    simp only [candidatesA] at h
    injection h with h
    rw [← h]
  | cons k rest ih =>
    intro cs h
    simp only [candidatesA] at h
    by_cases hsf : sf = some k
    · rw [if_pos hsf] at h
      cases hr : candidatesA ws excl sf rest with
      | error e =>
        simp only [hr] at h
        exact Except.noConfusion h
      | ok cs2 =>
        simp only [hr] at h
        injection h with h
        rw [← h]
        exact (ih cs2 hr).cons₂ k
    · rw [if_neg hsf] at h
      by_cases hex : excl.contains k = true
      · rw [if_pos hex] at h
        exact (ih cs h).cons k
      · rw [if_neg hex] at h
        cases hlk : lookupCrate ws k with
        | none =>
          simp only [hlk] at h
          exact Except.noConfusion h
        | some c =>
          simp only [hlk] at h
          by_cases hsb : c.shouldBePublished = true
          · rw [if_pos hsb] at h
            cases hr : candidatesA ws excl sf rest with
            | error e =>
              simp only [hr] at h
              exact Except.noConfusion h
            | ok cs2 =>
              simp only [hr] at h
              injection h with h
              rw [← h]
              exact (ih cs2 hr).cons₂ k
          · rw [if_neg hsb] at h
            exact (ih cs h).cons k

theorem candidates_sublist (ws : PWorkspace) (order : List String)
    (excl : List String) (opts : RunOpts) (cands : List String)
    (h : candidates ws order excl opts = Except.ok cands) : cands.Sublist order := by
  simp only [candidates] at h
  by_cases hpo : opts.publishOnly.isEmpty = true
  · rw [if_pos hpo] at h
    exact candidatesA_sublist ws excl opts.startFrom order cands h
  · rw [if_neg hpo] at h
    by_cases hic : opts.includeCratesDependents = true
    · rw [if_pos hic] at h
      cases hil : includeLoop ws order excl (order.length + 1) opts.publishOnly with
      | error e =>
        simp only [hil] at h
        exact Except.noConfusion h
      | ok incl =>
        simp only [hil] at h
        injection h with h
        rw [← h]
        exact List.filter_sublist _
    · rw [if_neg hic] at h
      injection h with h
      rw [← h]
      exact List.filter_sublist _

theorem retainGo_subset (K : String) (excl : List String) :
    ∀ cands keep, ∀ s ∈ retainGo K excl keep cands, s ∈ cands := by
  intro cands
  induction cands with
  | nil =>
    intro keep s hs
    simp [retainGo] at hs
  | cons c rest ih =>
    intro keep s hs
    simp only [retainGo] at hs
    by_cases hc : c = K
    · rw [if_pos hc] at hs
      by_cases hex : excl.contains c = true
      · rw [if_pos hex] at hs
        exact List.mem_cons_of_mem _ (ih true s hs)
      · rw [if_neg hex] at hs
        rcases List.mem_cons.mp hs with rfl | hs2
        · exact List.mem_cons_self _ _
        · exact List.mem_cons_of_mem _ (ih true s hs2)
    · rw [if_neg hc] at hs
      by_cases hk : keep = true
      · rw [if_pos hk] at hs
        rcases List.mem_cons.mp hs with rfl | hs2
        · exact List.mem_cons_self _ _
        · exact List.mem_cons_of_mem _ (ih keep s hs2)
      · rw [if_neg hk] at hs
        exact List.mem_cons_of_mem _ (ih keep s hs)

theorem retainGo_false_mem (K : String) (excl : List String) :
    ∀ cands, ∀ s ∈ retainGo K excl false cands,
      s ∈ cands.dropWhile (fun c => c ≠ K) := by
  intro cands
  induction cands with
  | nil =>
    intro s hs
    simp [retainGo] at hs
  | cons c rest ih =>
    intro s hs
    simp only [retainGo] at hs
    rw [List.dropWhile_cons]
    by_cases hc : c = K
    · rw [if_pos hc] at hs
      rw [if_neg (by simp [hc])]
      by_cases hex : excl.contains c = true
      · rw [if_pos hex] at hs
        exact List.mem_cons_of_mem _ (retainGo_subset K excl rest true s hs)
      · rw [if_neg hex] at hs
        rcases List.mem_cons.mp hs with rfl | hs2
        · exact List.mem_cons_self _ _
        · exact List.mem_cons_of_mem _ (retainGo_subset K excl rest true s hs2)
    · rw [if_neg hc, if_neg Bool.false_ne_true] at hs
      rw [if_pos (by simp [hc])]
      exact ih s hs

theorem dropWhile_ne_head (K : String) :
    ∀ (l : List String) (y : String) (ys : List String),
      l.dropWhile (fun c => c ≠ K) = y :: ys → y = K := by
  intro l
  induction l with
  | nil =>
    intro y ys h
    simp at h
  | cons c rest ih =>
    intro y ys h
    rw [List.dropWhile_cons] at h
    by_cases hc : c = K
    · rw [if_neg (by simp [hc])] at h
      injection h with h1 h2
      rw [← h1]
      exact hc
    · rw [if_pos (by simp [hc])] at h
      exact ih y ys h

theorem two_sublist_not_takeWhile (K : String) :
    ∀ (l : List String), l.Nodup → ∀ s, List.Sublist [K, s] l →
      s ∉ l.takeWhile (fun c => c ≠ K) := by
  intro l
  induction l with
  | nil =>
    intro hnd s hsub hmem
    simp at hmem
  | cons x rest ih =>
    intro hnd s hsub hmem
    rw [List.nodup_cons] at hnd
    rw [List.takeWhile_cons] at hmem
    by_cases hx : x = K
    · rw [if_neg (by simp [hx])] at hmem
      simp at hmem
    · rw [if_pos (by simp [hx])] at hmem
      cases hsub with
      | cons _ hsub2 =>
        rcases List.mem_cons.mp hmem with rfl | hmem2
        · have hsr : s ∈ rest := (List.Sublist.subset hsub2) (by simp)
          exact hnd.1 hsr
        · exact ih hnd.2 s hsub2 hmem2
      | cons₂ hsub2 =>
        exact absurd rfl hx

/-- C4, counterexample: with `--start-from B` in the two-crate workspace
where `B` depends on `A` and both need publishing, the run publishes `A`
even though `A` is ordered strictly before `B` in the publish order —
`what_needs_publishing` pulls the whole dependency closure of each selected
crate, including crates before the start point. -/
theorem C4_counterexample :
    (∃ res, publishRun [("A", ⟨[], true⟩), ("B", ⟨["A"], true⟩)] (fun _ => true)
        (RunOpts.mk [] (some "B") false [] false) = Except.ok res ∧
      "A" ∈ res.published) ∧
    "A" ∈ (get_publish_order
      (depsWs [("A", ⟨[], true⟩), ("B", ⟨["A"], true⟩)])).takeWhile
        (fun c => c ≠ "B") :=
  ⟨⟨RunResult.mk ["B"] ["A", "B"], rfl, by decide⟩, by decide⟩

/-- C4 (amended): with `--start-from K`, no crate ordered strictly before
`K` in the publish order is ever *selected* as a top-level candidate: every
selected crate lies at or after `K`'s position.  (Crates before `K` can
still be version-adjusted, bumped, published, and have manifests rewritten
when they are dependencies of a selected crate, as the counterexample
shows.) -/
theorem C4_amended (ws : PWorkspace) (needsPub : String → Bool) (opts : RunOpts)
    (K : String) (hK : opts.startFrom = some K) (res : RunResult)
    (hkeys : (ws.map Prod.fst).Nodup)
    (hdepsnd : ∀ kc ∈ ws, kc.2.deps.Nodup)
    (hrun : publishRun ws needsPub opts = Except.ok res) :
    ∀ s ∈ res.selected,
      s ∉ (get_publish_order (depsWs ws)).takeWhile (fun c => c ≠ K) := by
  obtain ⟨horder, excl, cands, hexc, hcand, hsel, hval, hpub⟩ :=
    publishRun_ok_parts ws needsPub opts res hrun
  intro s hs
  rw [hsel, hK] at hs
  simp only [retainFrom] at hs
  have hdw := retainGo_false_mem K excl cands s hs
  have hkeys2 : ((depsWs ws).map Prod.fst).Nodup := by
    rw [depsWs_keys]
    exact hkeys
  have hdepsnd2 : ∀ kd ∈ depsWs ws, kd.2.Nodup := by
    intro kd hkd
    rcases List.mem_map.mp hkd with ⟨kc, hkc, rfl⟩
    exact hdepsnd kc hkc
  have hWF := orderLoop_WF (depsWs ws) hkeys2 hdepsnd2 ((depsWs ws).length + 1) []
    (WFAcc_nil _)
  have hordnd : (get_publish_order (depsWs ws)).Nodup := by
    unfold get_publish_order
    have hperm : ((List.insertionSort ocLE
        (orderLoop (depsWs ws) ((depsWs ws).length + 1) [])).map
          (fun oc => oc.name)).Perm
        (namesOf (orderLoop (depsWs ws) ((depsWs ws).length + 1) [])) :=
      (List.perm_insertionSort ocLE _).map _
    exact hperm.nodup_iff.mpr hWF.1
  have hsubl : cands.Sublist (get_publish_order (depsWs ws)) :=
    candidates_sublist ws _ excl opts cands hcand
  cases hdwe : cands.dropWhile (fun c => c ≠ K) with
  | nil =>
    rw [hdwe] at hdw
    simp at hdw
  | cons y ys =>
    rw [hdwe] at hdw
    have hyK : y = K := dropWhile_ne_head K cands y ys hdwe
    subst hyK
    rcases List.mem_cons.mp hdw with rfl | hs2
    · intro hmem
      have := List.mem_takeWhile_imp hmem
      simp at this
    · have h1 : List.Sublist [y, s] (y :: ys) :=
        List.Sublist.cons₂ y (List.singleton_sublist.mpr hs2)
      have h2 : List.Sublist (y :: ys) cands := by
        rw [← hdwe]
        exact List.dropWhile_sublist _
      exact two_sublist_not_takeWhile y (get_publish_order (depsWs ws)) hordnd s
        ((h1.trans h2).trans hsubl)

/-- C4 (amended), witness at the counterexample run: the only selected
crate, `B`, is not ordered strictly before `B`. -/
theorem C4_amended_witness :
    "B" ∉ (get_publish_order
      (depsWs [("A", ⟨[], true⟩), ("B", ⟨["A"], true⟩)])).takeWhile
        (fun c => c ≠ "B") :=
  C4_amended [("A", ⟨[], true⟩), ("B", ⟨["A"], true⟩)] (fun _ => true)
    (RunOpts.mk [] (some "B") false [] false) "B" rfl
    (RunResult.mk ["B"] ["A", "B"]) (by decide) (by decide) rfl "B" (by decide)

end Subpub
